import Mathlib

/-!
Verification of the zdiff core (src/zdiff.py): a shallow embedding of the
similarity scorer, chunk aligner, intra-line highlighter and display-width
engine, together with proofs about the frozen specification claims.

Python strings are modelled as `List Char`; Python float scores are modelled
as exact rationals, with float negative infinity modelled as `⊥ : WithBot ℚ`.
The generic sequence matcher from the standard library (difflib), which the
source calls for ratios, opcode decompositions and the large-block fallback,
is embedded faithfully (b2j with autojunk popularity filtering, the
find_longest_match row fold, the queue-based matching-block search, adjacent
block collapsing, opcode emission and the ratio).  While loops are embedded
as fuelled recursions with obviously sufficient fuel so that every definition
is executable by the kernel.
-/

namespace Zdiff

/-! ### Character classes -/

/-- Identifier characters: alphanumeric or underscore (is_word_char / WORD_RE). -/
def is_word_char (c : Char) : Bool := c.isAlphanum || c == '_'

/-- Python str.isspace on a single character (ASCII whitespace model). -/
def isSpaceChar (c : Char) : Bool :=
  c == ' ' || c == '\t' || c == '\n' || c == '\r' || c == '\x0b' || c == '\x0c'

/-- Python str.isalnum on a whole string: nonempty and all alphanumeric. -/
def isAlnumStr (l : List Char) : Bool := !l.isEmpty && l.all (fun c => c.isAlphanum)

/-- Python slice text[i:j] with clamping; empty when j ≤ i. -/
def pySlice (text : List Char) (i j : Nat) : List Char := (text.take j).drop i

/-! ### ANSI escape sequences and color constants -/

def escChar : Char := '\x1b'

def RESET : List Char := [escChar, '[', '0', 'm']

def DEL_BG : List Char :=
  [escChar, '[', '4', '8', ';', '5', ';', '7', '4', 'm', escChar, '[', '3', '7', 'm']

def ADD_BG : List Char :=
  [escChar, '[', '4', '8', ';', '5', ';', '3', '6', 'm', escChar, '[', '3', '7', 'm']

def RED_SPACE_BG : List Char := [escChar, '[', '4', '8', ';', '5', ';', '8', '8', 'm']

def GREEN_SPACE_BG : List Char := [escChar, '[', '4', '2', 'm']

def LINE_DEL_BG : List Char :=
  [escChar, '[', '4', '8', ';', '5', ';', '6', '7', 'm', escChar, '[', '3', '7', 'm']

def LINE_ADD_BG : List Char :=
  [escChar, '[', '4', '8', ';', '5', ';', '6', '5', 'm', escChar, '[', '3', '7', 'm']

/-- Characters allowed in the body of an ANSI escape sequence: digits and semicolon. -/
def isAnsiBodyChar (c : Char) : Bool := c.isDigit || c == ';'

/-- Scan the body of an ANSI escape sequence after ESC [: consume characters in
    [0-9;]* and expect a final m; on success return the remainder after the m. -/
def ansiBody : List Char → Option (List Char)
  | [] => none
  | c :: cs => if c == 'm' then some cs else if isAnsiBodyChar c then ansiBody cs else none

/-- If the text starts with a full ANSI escape sequence (the regex
    ESC [ [0-9;]* m anchored at the head), return the remainder after it. -/
def ansiSuffix : List Char → Option (List Char)
  | c1 :: c2 :: cs => if c1 == escChar && c2 == '[' then ansiBody cs else none
  | _ => none

/-- ANSI_ESCAPE_RE.sub(text, ""): remove every escape-sequence match.  Fuel is
    the length of the text, which bounds the number of scanning steps. -/
def stripAnsiF : Nat → List Char → List Char
  | 0, l => l
  | _ + 1, [] => []
  | fuel + 1, c :: cs =>
    match ansiSuffix (c :: cs) with
    | some rest => stripAnsiF fuel rest
    | none => c :: stripAnsiF fuel cs

def stripAnsi (l : List Char) : List Char := stripAnsiF l.length l

/-- ANSI_ESCAPE_RE.search: does the text contain a match anywhere? -/
def ansiSearch : List Char → Bool
  | [] => false
  | c :: cs => (ansiSuffix (c :: cs)).isSome || ansiSearch cs

/-! ### Display-width engine -/

/-- Terminal display width of one character (char_display_width).  Tab and
    newline/carriage-return are special-cased in the source; the remaining
    per-character Unicode width classification (wcwidth when available, else
    the combining/control = 0, East-Asian wide = 2, others = 1 fallback) is a
    platform table abstracted as the parameter `table`. -/
def char_display_width (table : Char → Nat) (ch : Char) : Nat :=
  if ch == '\t' then 4
  else if ch == '\n' || ch == '\r' then 0
  else table ch

/-- visible_length: display width of the text with ANSI escapes stripped. -/
def visible_length (table : Char → Nat) (text : List Char) : Nat :=
  ((stripAnsi text).map (char_display_width table)).sum

/-- The copying walk inside clip_visible: copy escape sequences through
    untouched, count visible characters against the budget, stop before
    exceeding it.  Fuel is the length of the text. -/
def clipWalkF (table : Char → Nat) (targetWidth : Nat) : Nat → List Char → Nat → List Char
  | 0, _, _ => []
  | _ + 1, [], _ => []
  | fuel + 1, c :: cs, usedWidth =>
    if usedWidth ≥ targetWidth then []
    else
      match ansiSuffix (c :: cs) with
      | some rest =>
        (c :: cs).take ((c :: cs).length - rest.length) ++
          clipWalkF table targetWidth fuel rest usedWidth
      | none =>
        let w := char_display_width table c
        if usedWidth + w > targetWidth then []
        else c :: clipWalkF table targetWidth fuel cs (usedWidth + w)

def defaultEllipsis : List Char := ['.', '.', '.']

/-- The clipped text before the ellipsis: the copying walk, with a reset
    appended when the walk copied styling that it does not already close. -/
def clipCore (table : Char → Nat) (targetWidth : Nat) (text : List Char) : List Char :=
  if ansiSearch (clipWalkF table targetWidth text.length text 0) &&
     !(RESET.isSuffixOf (clipWalkF table targetWidth text.length text 0)) then
    clipWalkF table targetWidth text.length text 0 ++ RESET
  else clipWalkF table targetWidth text.length text 0

/-- clip_visible: clip text to a target visible width, preserving ANSI escape
    sequences, appending a reset if any styling is open, then the ellipsis. -/
def clip_visible (table : Char → Nat) (text : List Char) (width : Nat)
    (ellipsis : List Char) : List Char :=
  if width = 0 then []
  else if visible_length table text ≤ width then text
  else if visible_length table ellipsis ≥ width then List.replicate width '.'
  else clipCore table (width - visible_length table ellipsis) text ++ ellipsis

/-! ### The generic sequence matcher (difflib.SequenceMatcher)

Embedded for an arbitrary element type with decidable equality.  Every call
site in the source passes isjunk=None, so bjunk is empty and the two
junk-extension loops of find_longest_match never fire; they are omitted. -/

/-- All indices at which x occurs in b, in increasing order (a b2j entry). -/
def positions {α : Type} [DecidableEq α] (b : List α) (x : α) : List Nat :=
  (List.range b.length).filter (fun j => b.get? j == some x)

/-- __chain_b: the b2j map with autojunk popularity filtering: when the
    sequence has at least 200 elements, elements occurring more than
    1 + 1 percent of the time are dropped from the map. -/
def b2j {α : Type} [DecidableEq α] (autojunk : Bool) (b : List α) (x : α) : List Nat :=
  let idxs := positions b x
  if autojunk && decide (b.length ≥ 200) && decide (idxs.length > b.length / 100 + 1) then []
  else idxs

/-- Equality test a[i] == b[j] through optional indexing (both in range). -/
def idxEq {α : Type} [DecidableEq α] (a : List α) (i : Nat) (b : List α) (j : Nat) : Bool :=
  match a.get? i, b.get? j with
  | some x, some y => x == y
  | _, _ => false

/-- One row of the find_longest_match inner loop: fold over the occurrences of
    a[i] in b restricted to [blo, bhi), building the new j2len table (a total
    function defaulting to 0, as the dict with .get(-, 0)) and updating the
    best block on strict improvement. -/
def flmRow (blo bhi i : Nat) (js : List Nat) (j2len : Nat → Nat)
    (best : Nat × Nat × Nat) : (Nat → Nat) × (Nat × Nat × Nat) :=
  (js.filter (fun j => decide (blo ≤ j) && decide (j < bhi))).foldl
    (fun st j =>
      let k := (if j = 0 then 0 else j2len (j - 1)) + 1
      ((fun m => if m = j then k else st.1 m),
       if k > st.2.2.2 then (i + 1 - k, j + 1 - k, k) else st.2))
    ((fun _ => 0), best)

/-- The outer row loop of find_longest_match, i from alo to ahi - 1. -/
def flmFold {α : Type} [DecidableEq α] [Inhabited α] (a : List α) (bj : α → List Nat)
    (alo ahi blo bhi : Nat) : Nat × Nat × Nat :=
  ((List.range' alo (ahi - alo)).foldl
    (fun st i => flmRow blo bhi i (bj (a.getD i default)) st.1 st.2)
    ((fun _ => 0), (alo, blo, 0))).2

/-- The backward extension loop of find_longest_match (structural on besti). -/
def extendBack {α : Type} [DecidableEq α] (a b : List α) (alo blo : Nat) :
    Nat → Nat → Nat → Nat × Nat × Nat
  | 0, bj, k => (0, bj, k)
  | bi + 1, bj, k =>
    if decide (alo < bi + 1) && decide (blo < bj) && idxEq a bi b (bj - 1) then
      extendBack a b alo blo bi (bj - 1) (k + 1)
    else (bi + 1, bj, k)

/-- The forward extension loop of find_longest_match (fuelled; at most ahi
    iterations can ever run). -/
def extendFwdF {α : Type} [DecidableEq α] (a b : List α) (ahi bhi bi bj : Nat) :
    Nat → Nat → Nat
  | 0, k => k
  | fuel + 1, k =>
    if decide (bi + k < ahi) && decide (bj + k < bhi) && idxEq a (bi + k) b (bj + k) then
      extendFwdF a b ahi bhi bi bj fuel (k + 1)
    else k

/-- find_longest_match with no junk function. -/
def find_longest_match {α : Type} [DecidableEq α] [Inhabited α] (a b : List α)
    (bj : α → List Nat) (alo ahi blo bhi : Nat) : Nat × Nat × Nat :=
  let best := flmFold a bj alo ahi blo bhi
  let best := extendBack a b alo blo best.1 best.2.1 best.2.2
  (best.1, best.2.1, extendFwdF a b ahi bhi best.1 best.2.1 ahi best.2.2)

/-- The queue loop of get_matching_blocks.  The queue is kept head-first
    (the head is the rectangle Python pops from the end of its list); the
    right sub-rectangle is pushed in front of the left one so it is processed
    first, exactly as in the source.  Fuel la + lb + 1 bounds the total
    perimeter measure of the queue, which strictly decreases each step. -/
def mbLoopF {α : Type} [DecidableEq α] [Inhabited α] (a b : List α) (bj : α → List Nat) :
    Nat → List (Nat × Nat × Nat × Nat) → List (Nat × Nat × Nat) → List (Nat × Nat × Nat)
  | 0, _, acc => acc
  | _ + 1, [], acc => acc
  | fuel + 1, (alo, ahi, blo, bhi) :: queue, acc =>
    let x := find_longest_match a b bj alo ahi blo bhi
    if x.2.2 ≠ 0 then
      mbLoopF a b bj fuel
        ((if x.1 + x.2.2 < ahi ∧ x.2.1 + x.2.2 < bhi
          then [(x.1 + x.2.2, ahi, x.2.1 + x.2.2, bhi)] else []) ++
         (if alo < x.1 ∧ blo < x.2.1 then [(alo, x.1, blo, x.2.1)] else []) ++ queue)
        (acc ++ [x])
    else mbLoopF a b bj fuel queue acc

/-- Lexicographic order on matching-block triples (Python tuple sort order). -/
def blockLe (x y : Nat × Nat × Nat) : Prop :=
  x.1 < y.1 ∨ (x.1 = y.1 ∧ (x.2.1 < y.2.1 ∨ (x.2.1 = y.2.1 ∧ x.2.2 ≤ y.2.2)))

instance : DecidableRel blockLe := fun x y => by unfold blockLe; infer_instance

instance : IsTotal (Nat × Nat × Nat) blockLe :=
  ⟨fun x y => by unfold blockLe; omega⟩

instance : IsTrans (Nat × Nat × Nat) blockLe :=
  ⟨fun x y z hxy hyz => by unfold blockLe at hxy hyz ⊢; omega⟩

/-- The second phase of get_matching_blocks: collapse adjacent equal blocks. -/
def collapseAdjacent : Nat × Nat × Nat → List (Nat × Nat × Nat) → List (Nat × Nat × Nat)
  | (i1, j1, k1), [] => if k1 ≠ 0 then [(i1, j1, k1)] else []
  | (i1, j1, k1), (i2, j2, k2) :: rest =>
    if i1 + k1 = i2 ∧ j1 + k1 = j2 then collapseAdjacent (i1, j1, k1 + k2) rest
    else (if k1 ≠ 0 then [(i1, j1, k1)] else []) ++ collapseAdjacent (i2, j2, k2) rest

/-- get_matching_blocks: queue search, sort, collapse, final sentinel. -/
def get_matching_blocks {α : Type} [DecidableEq α] [Inhabited α] (autojunk : Bool)
    (a b : List α) : List (Nat × Nat × Nat) :=
  let la := a.length
  let lb := b.length
  let found := mbLoopF a b (b2j autojunk b) (la + lb + 1) [(0, la, 0, lb)] []
  collapseAdjacent (0, 0, 0) (List.insertionSort blockLe found) ++ [(la, lb, 0)]

inductive OpTag
  | equal
  | delete
  | insert
  | replace
deriving DecidableEq

structure Opcode where
  tag : OpTag
  i1 : Nat
  i2 : Nat
  j1 : Nat
  j2 : Nat
deriving DecidableEq

/-- The opcode emission loop of get_opcodes. -/
def opcodesFromBlocks : Nat → Nat → List (Nat × Nat × Nat) → List Opcode
  | _, _, [] => []
  | i, j, (ai, bj, size) :: rest =>
    (if i < ai ∧ j < bj then [⟨OpTag.replace, i, ai, j, bj⟩]
     else if i < ai then [⟨OpTag.delete, i, ai, j, bj⟩]
     else if j < bj then [⟨OpTag.insert, i, ai, j, bj⟩]
     else []) ++
    (if size ≠ 0 then [⟨OpTag.equal, ai, ai + size, bj, bj + size⟩] else []) ++
    opcodesFromBlocks (ai + size) (bj + size) rest

def get_opcodes {α : Type} [DecidableEq α] [Inhabited α] (autojunk : Bool)
    (a b : List α) : List Opcode :=
  opcodesFromBlocks 0 0 (get_matching_blocks autojunk a b)

/-- Total size of all matching blocks (the M of ratio = 2 M / T). -/
def totalMatched {α : Type} [DecidableEq α] [Inhabited α] (autojunk : Bool)
    (a b : List α) : Nat :=
  ((get_matching_blocks autojunk a b).map (fun x => x.2.2)).sum

/-- ratio as an exact rational: 2 M / T, and 1.0 when both sequences are empty. -/
def ratioQ {α : Type} [DecidableEq α] [Inhabited α] (autojunk : Bool)
    (a b : List α) : ℚ :=
  if a.length + b.length = 0 then 1
  else 2 * (totalMatched autojunk a b : ℚ) / ((a.length : ℚ) + (b.length : ℚ))

/-! ### Similarity scorer -/

/-- Accumulating splitter behind findWords: acc holds the current word run
    reversed. -/
def findWordsAux : List Char → List Char → List (List Char)
  | [], acc => if acc.isEmpty then [] else [acc.reverse]
  | c :: cs, acc =>
    if is_word_char c then findWordsAux cs (c :: acc)
    else (if acc.isEmpty then [] else [acc.reverse]) ++ findWordsAux cs []

/-- WORD_RE.findall: the maximal runs of word characters, in order. -/
def findWords (l : List Char) : List (List Char) := findWordsAux l []

/-- line_similarity_score: the maximum of the character-level ratio and the
    token-level ratio (0 when either side has no tokens); both matchers are
    created with autojunk=False. -/
def line_similarity_score (old_line new_line : List Char) : ℚ :=
  let charR := ratioQ false old_line new_line
  let old_tokens := findWords old_line
  let new_tokens := findWords new_line
  let tokenR :=
    if !old_tokens.isEmpty && !new_tokens.isEmpty then ratioQ false old_tokens new_tokens
    else 0
  max charR tokenR

/-! ### Chunk aligner -/

def pair_threshold : ℚ := 45 / 100

def gap_penalty : ℚ := -35 / 100

inductive BTOp
  | start
  | pair
  | delete
  | insert
deriving DecidableEq

/-- The interior-cell selection of the DP: start from the pair score with op
    pair, then override by the delete and then the insert score on strict
    improvement only — the source's two if statements, which realize the
    pair > delete > insert tie preference. -/
def dpInterior (pair_score delete_score insert_score : WithBot ℚ) : WithBot ℚ × BTOp :=
  if insert_score > (if delete_score > pair_score then (delete_score, BTOp.delete)
      else (pair_score, BTOp.pair)).1
  then (insert_score, BTOp.insert)
  else if delete_score > pair_score then (delete_score, BTOp.delete)
  else (pair_score, BTOp.pair)

/-- One cell of the DP and backtrack tables, exactly as filled by the source:
    base rows/columns accumulate the gap penalty; an interior cell applies the
    selection above to the pair score (⊥, i.e. float -inf, when the similarity
    is below the pairing threshold), the delete score and the insert score. -/
def dpCell (sim : Nat → Nat → ℚ) : Nat → Nat → WithBot ℚ × BTOp
  | 0, 0 => (((0 : ℚ) : WithBot ℚ), BTOp.start)
  | i + 1, 0 => ((dpCell sim i 0).1 + (gap_penalty : WithBot ℚ), BTOp.delete)
  | 0, j + 1 => ((dpCell sim 0 j).1 + (gap_penalty : WithBot ℚ), BTOp.insert)
  | i + 1, j + 1 =>
    dpInterior
      (if pair_threshold ≤ sim i j then (dpCell sim i j).1 + ((sim i j : ℚ) : WithBot ℚ)
       else ⊥)
      ((dpCell sim i (j + 1)).1 + (gap_penalty : WithBot ℚ))
      ((dpCell sim (i + 1) j).1 + (gap_penalty : WithBot ℚ))

inductive RowOp
  | equal (i j : Nat)
  | repl (i j : Nat)
  | del (i : Nat)
  | ins (j : Nat)
deriving DecidableEq

inductive Row
  | equal (oldNo : Nat) (oldLine : List Char) (newNo : Nat) (newLine : List Char)
  | repl (oldNo : Nat) (oldLine : List Char) (newNo : Nat) (newLine : List Char)
  | del (oldNo : Nat) (oldLine : List Char)
  | ins (newNo : Nat) (newLine : List Char)
deriving DecidableEq

/-- The backtrack loop (while i > 0 or j > 0) of the aligner, building the op
    list in reverse order exactly as the source appends it; a paired cell is
    tagged equal or replace according to textual identity of the two lines.
    Fuel i + j matches the number of loop steps. -/
def backtrackF (old_chunk new_chunk : List (List Char)) (bt : Nat → Nat → BTOp) :
    Nat → Nat → Nat → List RowOp
  | 0, _, _ => []
  | fuel + 1, i, j =>
    if i = 0 ∧ j = 0 then []
    else
      match bt i j with
      | BTOp.pair =>
        (if old_chunk.getD (i - 1) [] = new_chunk.getD (j - 1) []
         then RowOp.equal (i - 1) (j - 1) else RowOp.repl (i - 1) (j - 1)) ::
        backtrackF old_chunk new_chunk bt fuel (i - 1) (j - 1)
      | BTOp.delete => RowOp.del (i - 1) :: backtrackF old_chunk new_chunk bt fuel (i - 1) j
      | _ => RowOp.ins (j - 1) :: backtrackF old_chunk new_chunk bt fuel i (j - 1)

/-- Emission of one aligned row: 1-based display line numbers from the block
    start offsets, with the underlying text. -/
def rowOfOp (old_chunk new_chunk : List (List Char)) (old_start new_start : Nat) :
    RowOp → Row
  | RowOp.equal i j =>
    Row.equal (old_start + i + 1) (old_chunk.getD i [])
      (new_start + j + 1) (new_chunk.getD j [])
  | RowOp.repl i j =>
    Row.repl (old_start + i + 1) (old_chunk.getD i [])
      (new_start + j + 1) (new_chunk.getD j [])
  | RowOp.del i => Row.del (old_start + i + 1) (old_chunk.getD i [])
  | RowOp.ins j => Row.ins (new_start + j + 1) (new_chunk.getD j [])

/-- The rows the large-block fallback emits for one opcode: equal runs as
    Equal rows, delete/insert runs as Delete/Insert rows, replace runs paired
    index-for-index with the leftover as trailing Delete or Insert rows. -/
def fallbackRowsOfOpcode (old_chunk new_chunk : List (List Char))
    (old_start new_start : Nat) (op : Opcode) : List Row :=
  match op.tag with
  | OpTag.equal =>
    (List.range (op.i2 - op.i1)).map (fun idx =>
      Row.equal (old_start + (op.i1 + idx) + 1) (old_chunk.getD (op.i1 + idx) [])
        (new_start + (op.j1 + idx) + 1) (new_chunk.getD (op.j1 + idx) []))
  | OpTag.delete =>
    (List.range' op.i1 (op.i2 - op.i1)).map (fun oldIdx =>
      Row.del (old_start + oldIdx + 1) (old_chunk.getD oldIdx []))
  | OpTag.insert =>
    (List.range' op.j1 (op.j2 - op.j1)).map (fun newIdx =>
      Row.ins (new_start + newIdx + 1) (new_chunk.getD newIdx []))
  | OpTag.replace =>
    let n_pairs := min (op.i2 - op.i1) (op.j2 - op.j1)
    (List.range n_pairs).map (fun idx =>
      Row.repl (old_start + (op.i1 + idx) + 1) (old_chunk.getD (op.i1 + idx) [])
        (new_start + (op.j1 + idx) + 1) (new_chunk.getD (op.j1 + idx) [])) ++
    (List.range' (op.i1 + n_pairs) (op.i2 - (op.i1 + n_pairs))).map (fun oldIdx =>
      Row.del (old_start + oldIdx + 1) (old_chunk.getD oldIdx [])) ++
    (List.range' (op.j1 + n_pairs) (op.j2 - (op.j1 + n_pairs))).map (fun newIdx =>
      Row.ins (new_start + newIdx + 1) (new_chunk.getD newIdx []))

/-- The per-pair similarity matrix sim[i][j]. -/
def simMatrix (old_chunk new_chunk : List (List Char)) (i j : Nat) : ℚ :=
  line_similarity_score (old_chunk.getD i []) (new_chunk.getD j [])

/-- iter_aligned_chunk_rows: the similarity-based DP alignment, with the
    positional greedy fallback when n * m exceeds 50000. -/
def iter_aligned_chunk_rows (old_chunk new_chunk : List (List Char))
    (old_start new_start : Nat) : List Row :=
  if old_chunk.length * new_chunk.length > 50000 then
    ((get_opcodes true old_chunk new_chunk).map
      (fallbackRowsOfOpcode old_chunk new_chunk old_start new_start)).flatten
  else
    ((backtrackF old_chunk new_chunk
        (fun i j => (dpCell (simMatrix old_chunk new_chunk) i j).2)
        (old_chunk.length + new_chunk.length) old_chunk.length new_chunk.length).reverse).map
      (rowOfOp old_chunk new_chunk old_start new_start)

/-- The old-side display line number carried by a row, when there is one. -/
def rowOldNo : Row → Option Nat
  | Row.equal o _ _ _ => some o
  | Row.repl o _ _ _ => some o
  | Row.del o _ => some o
  | Row.ins _ _ => none

/-- The new-side display line number carried by a row, when there is one. -/
def rowNewNo : Row → Option Nat
  | Row.equal _ _ n _ => some n
  | Row.repl _ _ n _ => some n
  | Row.del _ _ => none
  | Row.ins n _ => some n

/-! ### Intra-line highlighter -/

/-- First loop of trim_insert_region: drop a leading fragment borrowed from the
    old right context (word characters matching position-for-position). -/
def tirDropLeadWordF (old_text new_text : List Char) : Nat → Nat → Nat → Nat → Nat × Nat
  | 0, start, _, right_idx => (start, right_idx)
  | fuel + 1, start, e, right_idx =>
    if decide (start < e) && decide (right_idx < old_text.length) &&
       is_word_char (new_text.getD start ' ') && is_word_char (old_text.getD right_idx ' ') &&
       (new_text.getD start ' ' == old_text.getD right_idx ' ') then
      tirDropLeadWordF old_text new_text fuel (start + 1) e (right_idx + 1)
    else (start, right_idx)

/-- Second loop of trim_insert_region: skip matching whitespace. -/
def tirDropLeadSpaceF (old_text new_text : List Char) : Nat → Nat → Nat → Nat → Nat × Nat
  | 0, start, _, right_idx => (start, right_idx)
  | fuel + 1, start, e, right_idx =>
    if decide (start < e) && decide (right_idx < old_text.length) &&
       isSpaceChar (new_text.getD start ' ') && isSpaceChar (old_text.getD right_idx ' ') then
      tirDropLeadSpaceF old_text new_text fuel (start + 1) e (right_idx + 1)
    else (start, right_idx)

/-- Third loop of trim_insert_region: drop a trailing fragment borrowed from
    the old left context.  left_idx is an integer as in the source (the loop
    guard is left_idx ≥ 0). -/
def tirDropTrailWordF (old_text new_text : List Char) (start : Nat) : Nat → Nat → Int → Nat × Int
  | 0, e, left_idx => (e, left_idx)
  | fuel + 1, e, left_idx =>
    if decide (start < e) && decide (0 ≤ left_idx) &&
       is_word_char (new_text.getD (e - 1) ' ') &&
       is_word_char (old_text.getD left_idx.toNat ' ') &&
       (new_text.getD (e - 1) ' ' == old_text.getD left_idx.toNat ' ') then
      tirDropTrailWordF old_text new_text start fuel (e - 1) (left_idx - 1)
    else (e, left_idx)

/-- while start < e and text[start].isspace(): start += 1. -/
def advanceStartSpacesF (text : List Char) : Nat → Nat → Nat → Nat
  | 0, start, _ => start
  | fuel + 1, start, e =>
    if decide (start < e) && isSpaceChar (text.getD start ' ') then
      advanceStartSpacesF text fuel (start + 1) e
    else start

/-- while e > start and text[e - 1].isspace(): e -= 1. -/
def retreatEndSpacesF (text : List Char) (start : Nat) : Nat → Nat → Nat
  | 0, e => e
  | fuel + 1, e =>
    if decide (start < e) && isSpaceChar (text.getD (e - 1) ' ') then
      retreatEndSpacesF text start fuel (e - 1)
    else e

/-- trim_insert_region: trim borrowed boundary fragments from insert regions
    when the matcher splits inside words. -/
def trim_insert_region (old_text new_text : List Char) (old_pos new_start new_end : Nat) :
    Nat × Nat :=
  if new_start ≥ new_end then (new_start, new_end)
  else if !(decide (0 < old_pos) && decide (old_pos < old_text.length)) then
    (new_start, new_end)
  else if !(is_word_char (old_text.getD (old_pos - 1) ' ') &&
            is_word_char (old_text.getD old_pos ' ')) then
    (new_start, new_end)
  else
    let p1 := tirDropLeadWordF old_text new_text (new_end - new_start) new_start new_end old_pos
    let p2 := tirDropLeadSpaceF old_text new_text (new_end - p1.1) p1.1 new_end p1.2
    let p3 := tirDropTrailWordF old_text new_text p2.1 new_end new_end ((old_pos : Int) - 1)
    let s := advanceStartSpacesF new_text (p3.1 - p2.1) p2.1 p3.1
    let e := retreatEndSpacesF new_text s p3.1 p3.1
    (s, e)

/-- The opcode loop of get_block_level_diff that collects the candidate change
    regions on the two sides. -/
def collectRegionsStep (old_text new_text : List Char)
    (acc : List (Nat × Nat) × List (Nat × Nat)) (op : Opcode) :
    List (Nat × Nat) × List (Nat × Nat) :=
  match op.tag with
  | OpTag.replace => (acc.1 ++ [(op.i1, op.i2)], acc.2 ++ [(op.j1, op.j2)])
  | OpTag.delete => (acc.1 ++ [(op.i1, op.i2)], acc.2)
  | OpTag.insert =>
    let inserted_starts_mid_word :=
      decide (op.j1 < op.j2) && decide (0 < op.i1) &&
      is_word_char (old_text.getD (op.i1 - 1) ' ') && is_word_char (new_text.getD op.j1 ' ')
    let acc1 := if !inserted_starts_mid_word then acc.1 ++ [(op.i1, op.i2)] else acc.1
    let t := trim_insert_region old_text new_text op.i1 op.j1 op.j2
    (acc1, if t.1 < t.2 then acc.2 ++ [t] else acc.2)
  | OpTag.equal => acc

def collectRegions (old_text new_text : List Char) (ops : List Opcode) :
    List (Nat × Nat) × List (Nat × Nat) :=
  ops.foldl (collectRegionsStep old_text new_text) ([], [])

/-- The mid-word trailing trim loop inside expand_to_word_boundaries. -/
def trimEndMidwordF (text : List Char) (start : Nat) : Nat → Nat → Nat
  | 0, e => e
  | fuel + 1, e =>
    if decide (start < e) && decide (e < text.length) &&
       is_word_char (text.getD (e - 1) ' ') && is_word_char (text.getD e ' ') then
      trimEndMidwordF text start fuel (e - 1)
    else e

/-- while p < len and not word(text[p]): p += 1. -/
def scanToWordF (text : List Char) : Nat → Nat → Nat
  | 0, p => p
  | fuel + 1, p =>
    if decide (p < text.length) && !is_word_char (text.getD p ' ') then
      scanToWordF text fuel (p + 1)
    else p

/-- while p < len and word(text[p]): p += 1. -/
def scanOverWordF (text : List Char) : Nat → Nat → Nat
  | 0, p => p
  | fuel + 1, p =>
    if decide (p < text.length) && is_word_char (text.getD p ' ') then
      scanOverWordF text fuel (p + 1)
    else p

/-- while s > 0 and word(text[s - 1]): s -= 1. -/
def expandBackwardF (text : List Char) : Nat → Nat → Nat
  | 0, s => s
  | fuel + 1, s =>
    if decide (0 < s) && is_word_char (text.getD (s - 1) ' ') then
      expandBackwardF text fuel (s - 1)
    else s

/-- The final branch of expand_to_word_boundaries on the preprocessed (s, e):
    a zero-length anchor scans forward to the next word (dropped if none),
    otherwise the start expands backward and the end scans over the word. -/
def expandCore (text : List Char) (s e : Nat) : Option (Nat × Nat) :=
  if s = e then
    if scanToWordF text text.length s ≥ text.length then none
    else some (scanToWordF text text.length s,
      scanOverWordF text text.length (scanToWordF text text.length s))
  else some (expandBackwardF text s s, scanOverWordF text text.length e)

/-- Processing of one candidate region inside expand_to_word_boundaries;
    none means the region is dropped (a zero-length anchor with no following
    word on the line). -/
def expandOne (text : List Char) (r : Nat × Nat) : Option (Nat × Nat) :=
  let start0 := r.1
  let end0 := r.2
  let block_text := pySlice text start0 end0
  let starts_mid_word :=
    decide (0 < start0) && decide (start0 < text.length) &&
    is_word_char (text.getD (start0 - 1) ' ') && is_word_char (text.getD start0 ' ')
  let end1 :=
    if !block_text.isEmpty && block_text.any isSpaceChar && starts_mid_word then
      trimEndMidwordF text start0 end0 end0
    else end0
  let block1 := pySlice text start0 end1
  let se :=
    if !block1.isEmpty && !(block1.all isSpaceChar) then
      let s := advanceStartSpacesF text (end1 - start0) start0 end1
      (s, retreatEndSpacesF text s end1 end1)
    else (start0, end1)
  expandCore text se.1 se.2

def expand_to_word_boundaries (text : List Char) (regions : List (Nat × Nat)) :
    List (Nat × Nat) :=
  regions.filterMap (expandOne text)

/-- is_small_gap: whether the gap text between two regions is mergeable. -/
def is_small_gap (text : List Char) (s e : Nat) : Bool :=
  if decide (s ≥ text.length) || decide (e > text.length) || decide (s ≥ e) then false
  else
    let gap_text := pySlice text s e
    let non_space_gap := gap_text.filter (fun c => !(c == ' ' || c == '\t' || c == '\n'))
    if non_space_gap.isEmpty then true
    else if decide (non_space_gap.length ≤ 2) && !(isAlnumStr non_space_gap) then true
    else if non_space_gap.length = 1 then true
    else false

/-- The merge decision of merge_regions for two neighboring sorted regions
    (merge_threshold is the default 5 used by every caller). -/
def shouldMerge (text : List Char) (last current : Nat × Nat) : Bool :=
  decide (current.1 ≤ last.2) ||
  (decide (current.1 - last.2 ≤ 5) && decide (current.1 - last.2 > 0) &&
   is_small_gap text last.2 current.1)

/-- The merging fold of merge_regions; last is the mutable merged[-1]. -/
def mergeLoop (text : List Char) : Nat × Nat → List (Nat × Nat) → List (Nat × Nat)
  | last, [] => [last]
  | last, current :: rest =>
    if shouldMerge text last current then
      mergeLoop text (last.1, max last.2 current.2) rest
    else last :: mergeLoop text current rest

/-- Sort order of Python sorted() on pairs. -/
def regionLe (x y : Nat × Nat) : Prop := x.1 < y.1 ∨ (x.1 = y.1 ∧ x.2 ≤ y.2)

instance : DecidableRel regionLe := fun x y => by unfold regionLe; infer_instance

instance : IsTotal (Nat × Nat) regionLe :=
  ⟨fun x y => by unfold regionLe; omega⟩

instance : IsTrans (Nat × Nat) regionLe :=
  ⟨fun x y z hxy hyz => by unfold regionLe at hxy hyz ⊢; omega⟩

/-- merge_regions: sort by start, then merge overlapping, adjacent, or
    small-gap-separated neighbors. -/
def merge_regions (regions : List (Nat × Nat)) (text : List Char) : List (Nat × Nat) :=
  match List.insertionSort regionLe regions with
  | [] => []
  | r0 :: rest => mergeLoop text r0 rest

/-- The region rendering loop of apply_highlights; pos is the copy cursor. -/
def applyHLLoop (text : List Char) (color space_color line_bg : List Char) :
    Nat → List (Nat × Nat) → List Char
  | pos, [] => pySlice text pos text.length
  | pos, (s, e) :: rest =>
    let block := pySlice text s e
    let highlight_color := if block.all isSpaceChar then space_color else color
    pySlice text pos s ++ highlight_color ++ block ++ RESET ++ line_bg ++
      applyHLLoop text color space_color line_bg e rest

/-- apply_highlights: wrap each region in its highlight marker, restoring the
    line background after each block. -/
def apply_highlights (text : List Char) (regions : List (Nat × Nat))
    (color space_color line_bg : List Char) : List Char :=
  if regions.isEmpty then text else applyHLLoop text color space_color line_bg 0 regions

/-- The two expanded candidate region lists of get_block_level_diff. -/
def gbdExpandedOld (old_text new_text : List Char) : List (Nat × Nat) :=
  expand_to_word_boundaries old_text
    (collectRegions old_text new_text (get_opcodes true old_text new_text)).1

def gbdExpandedNew (old_text new_text : List Char) : List (Nat × Nat) :=
  expand_to_word_boundaries new_text
    (collectRegions old_text new_text (get_opcodes true old_text new_text)).2

/-- The merged highlight regions of get_block_level_diff on the two sides. -/
def gbdMergedOld (old_text new_text : List Char) : List (Nat × Nat) :=
  merge_regions (gbdExpandedOld old_text new_text) old_text

def gbdMergedNew (old_text new_text : List Char) : List (Nat × Nat) :=
  merge_regions (gbdExpandedNew old_text new_text) new_text

/-- get_block_level_diff with the default line backgrounds (the None defaults
    resolve to LINE_DEL_BG and LINE_ADD_BG). -/
def get_block_level_diff (old_text new_text : List Char) : List Char × List Char :=
  (apply_highlights old_text (gbdMergedOld old_text new_text) DEL_BG RED_SPACE_BG LINE_DEL_BG,
   apply_highlights new_text (gbdMergedNew old_text new_text) ADD_BG GREEN_SPACE_BG LINE_ADD_BG)

/-! ### Specification-side definitions

These follow the wording of the specification claims (not the source); they
are compared with the source-side definitions above in refinement and
correction theorems. -/

/-- C7's gap-content condition exactly as the claim words it: the gap content
    is entirely whitespace, or a single non-alphanumeric character, or at most
    two non-alphanumeric characters. -/
def specGapContent (text : List Char) (s e : Nat) : Prop :=
  (∀ c ∈ pySlice text s e, isSpaceChar c = true) ∨
  ((pySlice text s e).length = 1 ∧ ∀ c ∈ pySlice text s e, c.isAlphanum = false) ∨
  ((pySlice text s e).length ≤ 2 ∧ ∀ c ∈ pySlice text s e, c.isAlphanum = false)

/-- C7's merge condition as claimed: the regions overlap, are adjacent, or are
    separated by a gap of at most 5 characters with the claimed content. -/
def specMergeCond (text : List Char) (last current : Nat × Nat) : Prop :=
  current.1 ≤ last.2 ∨ (current.1 - last.2 ≤ 5 ∧ specGapContent text last.2 current.1)

/-- The gap content with spaces, tabs and newlines removed (the non_space_gap
    of is_small_gap). -/
def gapResidue (text : List Char) (s e : Nat) : List Char :=
  (pySlice text s e).filter (fun c => !(c == ' ' || c == '\t' || c == '\n'))

/-- The amended gap condition, matching the code: after removing spaces, tabs
    and newlines the gap content is empty, or exactly one character of any
    kind, or at most two characters not all alphanumeric; in addition the gap
    must begin inside the line and end within it. -/
def amendedGapContent (text : List Char) (s e : Nat) : Prop :=
  s < text.length ∧ e ≤ text.length ∧
  (gapResidue text s e = [] ∨ (gapResidue text s e).length = 1 ∨
    ((gapResidue text s e).length ≤ 2 ∧ ∃ c ∈ gapResidue text s e, c.isAlphanum = false))

/-- Position p lies strictly inside a maximal run of word characters: both the
    character before p and the character at p are word characters (C6). -/
def insideWordRun (text : List Char) (p : Nat) : Prop :=
  0 < p ∧ p < text.length ∧
  is_word_char (text.getD (p - 1) ' ') = true ∧ is_word_char (text.getD p ' ') = true

/-- Spec-side positional greedy fallback (C3, written from the claim): for
    each opcode of the generic decomposition, equal runs become Equal rows,
    replace runs are paired index-for-index up to the shorter length by
    zipping the two index ranges, with the leftover indices emitted as
    trailing Delete or Insert rows, and lone delete/insert runs become
    Delete/Insert rows. -/
def specFallbackRowsOfOpcode (old_chunk new_chunk : List (List Char))
    (old_start new_start : Nat) (op : Opcode) : List Row :=
  match op.tag with
  | OpTag.equal =>
    ((List.range' op.i1 (op.i2 - op.i1)).zip (List.range' op.j1 (op.j2 - op.j1))).map
      (fun p => Row.equal (old_start + p.1 + 1) (old_chunk.getD p.1 [])
        (new_start + p.2 + 1) (new_chunk.getD p.2 []))
  | OpTag.delete =>
    (List.range' op.i1 (op.i2 - op.i1)).map (fun oldIdx =>
      Row.del (old_start + oldIdx + 1) (old_chunk.getD oldIdx []))
  | OpTag.insert =>
    (List.range' op.j1 (op.j2 - op.j1)).map (fun newIdx =>
      Row.ins (new_start + newIdx + 1) (new_chunk.getD newIdx []))
  | OpTag.replace =>
    ((List.range' op.i1 (op.i2 - op.i1)).zip (List.range' op.j1 (op.j2 - op.j1))).map
      (fun p => Row.repl (old_start + p.1 + 1) (old_chunk.getD p.1 [])
        (new_start + p.2 + 1) (new_chunk.getD p.2 [])) ++
    ((List.range' op.i1 (op.i2 - op.i1)).drop (op.j2 - op.j1)).map (fun oldIdx =>
      Row.del (old_start + oldIdx + 1) (old_chunk.getD oldIdx [])) ++
    ((List.range' op.j1 (op.j2 - op.j1)).drop (op.i2 - op.i1)).map (fun newIdx =>
      Row.ins (new_start + newIdx + 1) (new_chunk.getD newIdx []))

def positionalGreedyRows (old_chunk new_chunk : List (List Char))
    (old_start new_start : Nat) : List Row :=
  (get_opcodes true old_chunk new_chunk).flatMap
    (specFallbackRowsOfOpcode old_chunk new_chunk old_start new_start)

/-- The specified DP value (C2): base cases i * gapPenalty and j * gapPenalty,
    interior cells the maximum of the pair score (negative infinity when the
    similarity is below the pairing threshold), the delete score and the
    insert score.  specPair is the eligibility-gated pair transition. -/
def specDp (sim : Nat → Nat → ℚ) : Nat → Nat → WithBot ℚ
  | 0, j => ((((j : ℚ) * gap_penalty : ℚ)) : WithBot ℚ)
  | i + 1, 0 => (((((i + 1 : Nat) : ℚ) * gap_penalty : ℚ)) : WithBot ℚ)
  | i + 1, j + 1 =>
    max (max (if pair_threshold ≤ sim i j
              then specDp sim i j + ((sim i j : ℚ) : WithBot ℚ) else ⊥)
             (specDp sim i (j + 1) + (gap_penalty : WithBot ℚ)))
        (specDp sim (i + 1) j + (gap_penalty : WithBot ℚ))

/-- The eligibility-gated pair transition of the specified DP (C2): negative
    infinity unless the similarity reaches the pairing threshold. -/
def specPair (sim : Nat → Nat → ℚ) (i j : Nat) : WithBot ℚ :=
  if pair_threshold ≤ sim i j then specDp sim i j + ((sim i j : ℚ) : WithBot ℚ) else ⊥

/-- The specified backtracking choice (C2): gap steps on the boundary, else
    pair whenever it attains the cell maximum, else delete when it is at least
    the insert score, else insert (the fixed preference order). -/
def specOp (sim : Nat → Nat → ℚ) : Nat → Nat → BTOp
  | 0, 0 => BTOp.start
  | _ + 1, 0 => BTOp.delete
  | 0, _ + 1 => BTOp.insert
  | i + 1, j + 1 =>
    if specDp sim i (j + 1) + (gap_penalty : WithBot ℚ) ≤ specPair sim i j ∧
       specDp sim (i + 1) j + (gap_penalty : WithBot ℚ) ≤ specPair sim i j then BTOp.pair
    else if specDp sim (i + 1) j + (gap_penalty : WithBot ℚ) ≤
        specDp sim i (j + 1) + (gap_penalty : WithBot ℚ) then BTOp.delete
    else BTOp.insert

/-- The specified aligner (C2): the specified DP, backtracked from (n, m) with
    the fixed preference order, emitted as rows in old-to-new order. -/
def specAlignedRows (old_chunk new_chunk : List (List Char))
    (old_start new_start : Nat) : List Row :=
  ((backtrackF old_chunk new_chunk (specOp (simMatrix old_chunk new_chunk))
      (old_chunk.length + new_chunk.length) old_chunk.length new_chunk.length).reverse).map
    (rowOfOp old_chunk new_chunk old_start new_start)

/-! ### Proof-support relations

Used by the correctness arguments about the matcher and the aligner. -/

/-- Block x lies entirely before block y in both coordinates. -/
def blockCompat (x y : Nat × Nat × Nat) : Prop :=
  x.1 + x.2.2 ≤ y.1 ∧ x.2.1 + x.2.2 ≤ y.2.1

/-- Block bounds within the two sequence lengths. -/
def blockBounded (la lb : Nat) (x : Nat × Nat × Nat) : Prop :=
  x.1 + x.2.2 ≤ la ∧ x.2.1 + x.2.2 ≤ lb

/-- The block lies inside the rectangle (alo, ahi, blo, bhi). -/
def bestInRect (alo ahi blo bhi : Nat) (x : Nat × Nat × Nat) : Prop :=
  alo ≤ x.1 ∧ blo ≤ x.2.1 ∧ x.1 + x.2.2 ≤ ahi ∧ x.2.1 + x.2.2 ≤ bhi

/-- Well-formed search rectangle within the sequence lengths. -/
def rectWF (la lb : Nat) (r : Nat × Nat × Nat × Nat) : Prop :=
  r.1 ≤ r.2.1 ∧ r.2.1 ≤ la ∧ r.2.2.1 ≤ r.2.2.2 ∧ r.2.2.2 ≤ lb

/-- Rectangle r lies entirely before rectangle s in both coordinates. -/
def rectBefore (r s : Nat × Nat × Nat × Nat) : Prop :=
  r.2.1 ≤ s.1 ∧ r.2.2.2 ≤ s.2.2.1

/-- Block x lies entirely before rectangle r. -/
def blockBeforeRect (x : Nat × Nat × Nat) (r : Nat × Nat × Nat × Nat) : Prop :=
  x.1 + x.2.2 ≤ r.1 ∧ x.2.1 + x.2.2 ≤ r.2.2.1

/-- Rectangle r lies entirely before block x. -/
def rectBeforeBlock (r : Nat × Nat × Nat × Nat) (x : Nat × Nat × Nat) : Prop :=
  r.2.1 ≤ x.1 ∧ r.2.2.2 ≤ x.2.1

/-- The block list is monotonically chained from (i, j) and ends at (la, lb). -/
def chainedBlocks : Nat → Nat → Nat → Nat → List (Nat × Nat × Nat) → Prop
  | i, j, la, lb, [] => i = la ∧ j = lb
  | i, j, la, lb, (ai, bj, k) :: rest => i ≤ ai ∧ j ≤ bj ∧ chainedBlocks (ai + k) (bj + k) la lb rest

/-- Run length of the consecutive chain of b2j-listed cells ending at (i, j)
    when a sequence is matched against itself (proof support for the
    diagonal-record argument). -/
def diagR {α : Type} [DecidableEq α] [Inhabited α] (a : List α) (bj : α → List Nat) :
    Nat → Nat → Nat
  | 0, j => if j ∈ bj (a.getD 0 default) then 1 else 0
  | i + 1, 0 => if 0 ∈ bj (a.getD (i + 1) default) then 1 else 0
  | i + 1, j + 1 =>
    if j + 1 ∈ bj (a.getD (i + 1) default) then diagR a bj i j + 1 else 0

/-- The highlight regions are in order: each starts no earlier than the cursor,
    is well formed, and hands the cursor to its end (proof support). -/
def chainedRegions : Nat → List (Nat × Nat) → Prop
  | _, [] => True
  | pos, (s, e) :: rest => pos ≤ s ∧ s ≤ e ∧ chainedRegions e rest

/-- The old-side block index consumed by a backtrack op, when there is one. -/
def opOldIdx : RowOp → Option Nat
  | RowOp.equal i _ => some i
  | RowOp.repl i _ => some i
  | RowOp.del i => some i
  | RowOp.ins _ => none

/-- The new-side block index consumed by a backtrack op, when there is one. -/
def opNewIdx : RowOp → Option Nat
  | RowOp.equal _ j => some j
  | RowOp.repl _ j => some j
  | RowOp.del _ => none
  | RowOp.ins j => some j

/-! ## Theorems -/

/-- Characterization of is_small_gap: the gap lies inside the line, is
    nonempty, and its content with spaces, tabs and newlines removed is empty,
    a single character, or at most two characters not all alphanumeric. -/
theorem is_small_gap_iff (text : List Char) (s e : Nat) :
    is_small_gap text s e = true ↔
      s < text.length ∧ e ≤ text.length ∧ s < e ∧
      (gapResidue text s e = [] ∨ (gapResidue text s e).length = 1 ∨
        ((gapResidue text s e).length ≤ 2 ∧ ∃ c ∈ gapResidue text s e, c.isAlphanum = false)) := by
  have hres : (pySlice text s e).filter (fun c => !(c == ' ' || c == '\t' || c == '\n')) =
      gapResidue text s e := rfl
  unfold is_small_gap
  simp only [hres]
  by_cases hb : (decide (s ≥ text.length) || decide (e > text.length) || decide (s ≥ e)) = true
  · rw [if_pos hb]
    simp only [Bool.or_eq_true, decide_eq_true_eq] at hb
    refine iff_of_false (by simp) ?_
    rintro ⟨h1, h2, h3, -⟩
    omega
  · rw [if_neg hb]
    simp only [Bool.or_eq_true, decide_eq_true_eq, not_or] at hb
    obtain ⟨⟨hs, he⟩, hse⟩ := hb
    by_cases h0 : (gapResidue text s e).isEmpty = true
    · rw [if_pos h0]
      simp only [List.isEmpty_iff] at h0
      exact iff_of_true rfl ⟨by omega, by omega, by omega, Or.inl h0⟩
    · rw [if_neg h0]
      simp only [List.isEmpty_iff] at h0
      by_cases h2 : (decide ((gapResidue text s e).length ≤ 2) &&
          !(isAlnumStr (gapResidue text s e))) = true
      · rw [if_pos h2]
        simp only [Bool.and_eq_true, decide_eq_true_eq, Bool.not_eq_true'] at h2
        obtain ⟨hlen, halnum⟩ := h2
        unfold isAlnumStr at halnum
        simp only [Bool.and_eq_false_iff, Bool.not_eq_false', List.isEmpty_iff,
          List.all_eq_false] at halnum
        rcases halnum with h | ⟨c, hc, hcal⟩
        · exact absurd h h0
        · refine iff_of_true rfl ⟨by omega, by omega, by omega,
            Or.inr (Or.inr ⟨hlen, c, hc, ?_⟩)⟩
          simpa using hcal
      · rw [if_neg h2]
        simp only [Bool.and_eq_true, decide_eq_true_eq, Bool.not_eq_true',
          not_and] at h2
        by_cases h1 : (gapResidue text s e).length = 1
        · rw [if_pos h1]
          exact iff_of_true rfl ⟨by omega, by omega, by omega, Or.inr (Or.inl h1)⟩
        · rw [if_neg h1]
          refine iff_of_false (by simp) ?_
          rintro ⟨-, -, -, h | h | ⟨hlen, c, hc, hcal⟩⟩
          · exact h0 h
          · exact h1 h
          · have htrue : isAlnumStr (gapResidue text s e) = true := by
              have hne := h2 hlen
              simpa using hne
            unfold isAlnumStr at htrue
            simp only [Bool.and_eq_true, List.all_eq_true] at htrue
            have hcal2 := htrue.2 c hc
            simp [hcal] at hcal2

/-- C7 counterexample: a gap consisting of the single alphanumeric character a
    is merged by the code, although the claimed condition (entirely
    whitespace, a single non-alphanumeric character, or at most two
    non-alphanumeric characters) does not hold for it. -/
theorem c7_counterexample :
    shouldMerge ['X', 'a', 'Y'] (0, 1) (2, 3) = true ∧
    ¬ specMergeCond ['X', 'a', 'Y'] (0, 1) (2, 3) := by
  constructor
  · decide
  · unfold specMergeCond specGapContent
    decide

/-- C7 amended: two sorted neighboring regions are merged exactly when they
    overlap, are adjacent, or are separated by a nonempty in-line gap of at
    most 5 characters whose content, after removing spaces, tabs and newlines,
    is empty, is exactly one character of any kind, or is at most two
    characters not all of which are alphanumeric. -/
theorem c7_merge_iff (text : List Char) (last current : Nat × Nat) :
    shouldMerge text last current = true ↔
      (current.1 ≤ last.2 ∨
        (0 < current.1 - last.2 ∧ current.1 - last.2 ≤ 5 ∧
         amendedGapContent text last.2 current.1)) := by
  unfold shouldMerge amendedGapContent
  simp only [Bool.or_eq_true, Bool.and_eq_true, decide_eq_true_eq, is_small_gap_iff]
  constructor
  · rintro (h | ⟨⟨h5, h0⟩, hs, he, hse, hres⟩)
    · exact Or.inl h
    · exact Or.inr ⟨h0, h5, hs, he, hres⟩
  · rintro (h | ⟨h0, h5, hs, he, hres⟩)
    · exact Or.inl h
    · exact Or.inr ⟨⟨h5, h0⟩, hs, by omega, by omega, hres⟩

/-- C6 counterexample: a zero-length candidate anchored between the two word
    characters of ab is expanded forward to the following word, producing a
    region whose start lies strictly inside the word run ab. -/
theorem c6_counterexample :
    ∃ r ∈ expand_to_word_boundaries ['a', 'b'] [(1, 1)], insideWordRun ['a', 'b'] r.1 := by
  unfold insideWordRun
  decide

/-- C8 counterexample to the already-fits clause: at width 0 a text of visible
    width 0 fits but is not returned unchanged (the code returns the empty
    string for width at most 0). -/
theorem c8_counterexample :
    visible_length (fun _ => 1) ['\n'] ≤ 0 ∧
    clip_visible (fun _ => 1) ['\n'] 0 defaultEllipsis ≠ ['\n'] := by
  constructor
  · decide
  · unfold clip_visible
    decide

/-- C9 counterexample: a line that itself consists of an ANSI escape sequence
    is not reproduced by stripping the escapes from the highlighted output
    (the line's own escape is stripped together with the markers). -/
theorem c9_counterexample :
    stripAnsi (get_block_level_diff RESET ['x']).1 ≠ RESET := by
  decide

/-- The merge loop never produces the empty list. -/
theorem mergeLoop_ne_nil (text : List Char) (last : Nat × Nat) (rest : List (Nat × Nat)) :
    mergeLoop text last rest ≠ [] := by
  induction rest generalizing last with
  | nil => simp [mergeLoop]
  | cons current rest ih =>
    unfold mergeLoop
    by_cases h : shouldMerge text last current = true
    · rw [if_pos h]; exact ih _
    · rw [if_neg h]; simp

/-- The first element of the merge loop output starts where last starts. -/
theorem mergeLoop_head (text : List Char) (last : Nat × Nat) (rest : List (Nat × Nat)) :
    ∃ e2, (mergeLoop text last rest).head? = some (last.1, e2) := by
  induction rest generalizing last with
  | nil => exact ⟨last.2, by simp [mergeLoop]⟩
  | cons current rest ih =>
    unfold mergeLoop
    by_cases h : shouldMerge text last current = true
    · rw [if_pos h]
      obtain ⟨e2, he⟩ := ih (last.1, max last.2 current.2)
      exact ⟨e2, he⟩
    · rw [if_neg h]
      exact ⟨last.2, by simp⟩

/-- The merge loop output is pairwise disjoint: each region ends strictly
    before the next one starts. -/
theorem mergeLoop_disjoint (text : List Char) (last : Nat × Nat) (rest : List (Nat × Nat)) :
    List.Chain' (fun a b : Nat × Nat => a.2 < b.1) (mergeLoop text last rest) := by
  induction rest generalizing last with
  | nil => simp [mergeLoop]
  | cons current rest ih =>
    unfold mergeLoop
    by_cases h : shouldMerge text last current = true
    · rw [if_pos h]; exact ih _
    · rw [if_neg h]
      rw [List.chain'_cons']
      refine ⟨?_, ih current⟩
      intro b hb
      obtain ⟨e2, he⟩ := mergeLoop_head text current rest
      rw [he] at hb
      simp only [Option.mem_def, Option.some.injEq] at hb
      subst hb
      unfold shouldMerge at h
      simp only [Bool.or_eq_true, Bool.and_eq_true, decide_eq_true_eq, not_or] at h
      simpa using Nat.lt_of_not_le h.1

/-- The merge loop output has nondecreasing start offsets, provided the input
    is sorted in the Python tuple order. -/
theorem mergeLoop_starts (text : List Char) (last : Nat × Nat) (rest : List (Nat × Nat))
    (hsorted : List.Sorted regionLe (last :: rest)) :
    List.Chain' (fun a b : Nat × Nat => a.1 ≤ b.1) (mergeLoop text last rest) := by
  induction rest generalizing last with
  | nil => simp [mergeLoop]
  | cons current rest ih =>
    have hlc : regionLe last current := (List.sorted_cons.mp hsorted).1 current (by simp)
    have htail : List.Sorted regionLe (current :: rest) := (List.sorted_cons.mp hsorted).2
    unfold mergeLoop
    by_cases h : shouldMerge text last current = true
    · rw [if_pos h]
      refine ih (last.1, max last.2 current.2) ?_
      rw [List.sorted_cons]
      refine ⟨?_, htail.of_cons⟩
      intro r hr
      have hcr : regionLe current r := (List.sorted_cons.mp htail).1 r hr
      have hlr : regionLe last r := (List.sorted_cons.mp hsorted).1 r (by simp [hr])
      unfold regionLe at hlc hcr hlr ⊢
      simp only
      omega
    · rw [if_neg h]
      rw [List.chain'_cons']
      refine ⟨?_, ih current htail⟩
      intro b hb
      obtain ⟨e2, he⟩ := mergeLoop_head text current rest
      rw [he] at hb
      simp only [Option.mem_def, Option.some.injEq] at hb
      subst hb
      unfold regionLe at hlc
      simp only
      omega

/-- C10: for every input list of regions and text, the output of
    merge_regions is sorted by start offset and pairwise disjoint: every
    region ends strictly before the next one starts, so the left-to-right
    highlight slicing is well formed and no character is covered twice. -/
theorem c10_merge_regions_sorted_disjoint (regions : List (Nat × Nat)) (text : List Char) :
    List.Chain' (fun a b : Nat × Nat => a.1 ≤ b.1) (merge_regions regions text) ∧
    List.Chain' (fun a b : Nat × Nat => a.2 < b.1) (merge_regions regions text) := by
  unfold merge_regions
  have hsorted : List.Sorted regionLe (List.insertionSort regionLe regions) :=
    List.sorted_insertionSort regionLe regions
  cases hlist : List.insertionSort regionLe regions with
  | nil => simp
  | cons r0 rest =>
    rw [hlist] at hsorted
    exact ⟨mergeLoop_starts text r0 rest hsorted, mergeLoop_disjoint text r0 rest⟩

/-! ### ANSI stripping lemmas (display-width engine) -/

theorem ansiBody_length {u r : List Char} (h : ansiBody u = some r) : r.length < u.length := by
  induction u generalizing r with
  | nil => simp [ansiBody] at h
  | cons c us ih =>
    unfold ansiBody at h
    by_cases hm : (c == 'm') = true
    · rw [if_pos hm] at h
      cases h
      simp
    · rw [if_neg hm] at h
      by_cases hbody : isAnsiBodyChar c = true
      · rw [if_pos hbody] at h
        exact Nat.lt_trans (ih h) (by simp)
      · rw [if_neg hbody] at h
        cases h

theorem ansiBody_append {u r : List Char} (t : List Char) (h : ansiBody u = some r) :
    ansiBody (u ++ t) = some (r ++ t) := by
  induction u generalizing r with
  | nil => simp [ansiBody] at h
  | cons c us ih =>
    rw [List.cons_append]
    simp only [ansiBody] at h ⊢
    by_cases hm : (c == 'm') = true
    · rw [if_pos hm] at h ⊢
      cases h
      rfl
    · rw [if_neg hm] at h ⊢
      by_cases hbody : isAnsiBodyChar c = true
      · rw [if_pos hbody] at h ⊢
        exact ih h
      · rw [if_neg hbody] at h
        cases h

/-- A successful body scan decomposes the input as the consumed part followed
    by the remainder, the consumed part contains no escape character, and the
    consumed part parses the same way in front of any continuation. -/
theorem ansiBody_decomp {u r : List Char} (h : ansiBody u = some r) :
    ∃ p, u = p ++ r ∧ escChar ∉ p ∧ ∀ z, ansiBody (p ++ z) = some z := by
  induction u generalizing r with
  | nil => simp [ansiBody] at h
  | cons c us ih =>
    simp only [ansiBody] at h
    by_cases hm : (c == 'm') = true
    · rw [if_pos hm] at h
      cases h
      have hc : c = 'm' := by simpa using hm
      subst hc
      exact ⟨['m'], rfl, by decide, fun z => rfl⟩
    · rw [if_neg hm] at h
      by_cases hbody : isAnsiBodyChar c = true
      · rw [if_pos hbody] at h
        obtain ⟨p, hp, hnp, hparse⟩ := ih h
        refine ⟨c :: p, by simp [hp], ?_, ?_⟩
        · intro hmem
          rcases List.mem_cons.mp hmem with he | he
          · have hbad : isAnsiBodyChar escChar = false := by decide
            rw [← he] at hbody
            simp [hbad] at hbody
          · exact hnp he
        · intro z
          rw [List.cons_append]
          simp only [ansiBody]
          rw [if_neg hm, if_pos hbody]
          exact hparse z
      · rw [if_neg hbody] at h
        cases h

/-- A body scan that fails on u but succeeds on u ++ t consumes all of u and a
    prefix of t, which contains no escape character. -/
theorem ansiBody_span {u t r : List Char} (hnone : ansiBody u = none)
    (hsome : ansiBody (u ++ t) = some r) :
    ∃ p, t = p ++ r ∧ escChar ∉ p := by
  induction u generalizing r with
  | nil =>
    obtain ⟨p, hp, hnp, -⟩ := ansiBody_decomp hsome
    exact ⟨p, by simpa using hp, hnp⟩
  | cons c us ih =>
    rw [List.cons_append] at hsome
    simp only [ansiBody] at hnone hsome
    by_cases hm : (c == 'm') = true
    · rw [if_pos hm] at hnone
      cases hnone
    · rw [if_neg hm] at hnone hsome
      by_cases hbody : isAnsiBodyChar c = true
      · rw [if_pos hbody] at hnone hsome
        exact ih hnone hsome
      · rw [if_neg hbody] at hsome
        cases hsome

theorem ansiSuffix_length {l rest : List Char} (h : ansiSuffix l = some rest) :
    rest.length + 1 < l.length := by
  match l with
  | [] => simp [ansiSuffix] at h
  | [c] => simp [ansiSuffix] at h
  | c1 :: c2 :: cs =>
    simp only [ansiSuffix] at h
    by_cases hc : (c1 == escChar && c2 == '[') = true
    · rw [if_pos hc] at h
      have := ansiBody_length h
      simp only [List.length_cons]
      omega
    · rw [if_neg hc] at h
      cases h

theorem ansiSuffix_append {l rest : List Char} (t : List Char)
    (h : ansiSuffix l = some rest) : ansiSuffix (l ++ t) = some (rest ++ t) := by
  match l with
  | [] => simp [ansiSuffix] at h
  | [c] => simp [ansiSuffix] at h
  | c1 :: c2 :: cs =>
    simp only [ansiSuffix] at h
    rw [List.cons_append, List.cons_append]
    simp only [ansiSuffix]
    by_cases hc : (c1 == escChar && c2 == '[') = true
    · rw [if_pos hc] at h
      rw [if_pos hc]
      exact ansiBody_append t h
    · rw [if_neg hc] at h
      cases h

/-- stripAnsiF does not depend on the fuel, once the fuel covers the length. -/
theorem stripAnsiF_eq_of_le : ∀ (f : Nat) (l : List Char), l.length ≤ f →
    stripAnsiF f l = stripAnsi l := by
  intro f
  induction f using Nat.strong_induction_on with
  | _ f ih =>
    intro l hl
    match f, l with
    | 0, l =>
      interval_cases hlen : l.length
      · cases l with
        | nil => rfl
        | cons c cs => simp at hlen
    | f + 1, [] => rfl
    | f + 1, c :: cs =>
      show stripAnsiF (f + 1) (c :: cs) = stripAnsiF (cs.length + 1) (c :: cs)
      unfold stripAnsiF
      cases hsuf : ansiSuffix (c :: cs) with
      | some rest =>
        have hlen := ansiSuffix_length hsuf
        simp only [List.length_cons] at hlen hl
        show stripAnsiF f rest = stripAnsiF cs.length rest
        rw [ih f (by omega) rest (by omega), ih cs.length (by omega) rest (by omega)]
      | none =>
        show c :: stripAnsiF f cs = c :: stripAnsiF cs.length cs
        simp only [List.length_cons] at hl
        rw [ih f (by omega) cs (by omega), ih cs.length (by omega) cs (by omega)]

theorem stripAnsi_cons_some {c : Char} {cs rest : List Char}
    (h : ansiSuffix (c :: cs) = some rest) : stripAnsi (c :: cs) = stripAnsi rest := by
  show stripAnsiF (cs.length + 1) (c :: cs) = stripAnsi rest
  unfold stripAnsiF
  rw [h]
  have hlen := ansiSuffix_length h
  simp only [List.length_cons] at hlen
  exact stripAnsiF_eq_of_le cs.length rest (by omega)

theorem stripAnsi_cons_none {c : Char} {cs : List Char}
    (h : ansiSuffix (c :: cs) = none) : stripAnsi (c :: cs) = c :: stripAnsi cs := by
  show stripAnsiF (cs.length + 1) (c :: cs) = c :: stripAnsi cs
  unfold stripAnsiF
  rw [h]
  rfl

/-- A head that is not the escape character never starts a match. -/
theorem ansiSuffix_not_esc {c : Char} (l : List Char) (h : ¬ c = escChar) :
    ansiSuffix (c :: l) = none := by
  cases l with
  | nil => rfl
  | cons c2 cs =>
    simp only [ansiSuffix]
    rw [if_neg (by simp [h])]

/-- Stripping distributes over a prefix with no escape characters. -/
theorem stripAnsi_noesc_append (p x : List Char) (hp : escChar ∉ p) :
    stripAnsi (p ++ x) = p ++ stripAnsi x := by
  induction p with
  | nil => rfl
  | cons c ps ih =>
    have hc : ¬ c = escChar := fun he => hp (by simp [he])
    rw [List.cons_append, stripAnsi_cons_none (ansiSuffix_not_esc _ hc), ih (by
      intro hmem
      exact hp (List.mem_cons_of_mem c hmem))]
    rfl

theorem stripAnsi_noesc (p : List Char) (hp : escChar ∉ p) : stripAnsi p = p := by
  have h := stripAnsi_noesc_append p [] hp
  rw [show stripAnsi ([] : List Char) = [] from rfl] at h
  simpa using h

/-- Stripping removes a complete escape-sequence match at the head, whatever
    follows it. -/
theorem stripAnsi_matched_append {l rest : List Char} (h : ansiSuffix l = some rest)
    (z : List Char) :
    stripAnsi (l.take (l.length - rest.length) ++ z) = stripAnsi z := by
  match l with
  | [] => simp [ansiSuffix] at h
  | [c] => simp [ansiSuffix] at h
  | c1 :: c2 :: cs =>
    simp only [ansiSuffix] at h
    by_cases hc : (c1 == escChar && c2 == '[') = true
    · rw [if_pos hc] at h
      obtain ⟨p, hp, -, hparse⟩ := ansiBody_decomp h
      have hlen : (c1 :: c2 :: cs).length - rest.length = p.length + 2 := by
        rw [hp]
        simp only [List.length_cons, List.length_append]
        omega
      rw [hlen]
      have htake : (c1 :: c2 :: cs).take (p.length + 2) = c1 :: c2 :: p := by
        rw [hp]
        simp [List.take_left]
      rw [htake]
      have hsuf : ansiSuffix (c1 :: c2 :: (p ++ z)) = some z := by
        simp only [ansiSuffix]
        rw [if_pos hc]
        exact hparse z
      rw [List.cons_append, List.cons_append, stripAnsi_cons_some hsuf]
    · rw [if_neg hc] at h
      cases h

/-- Subadditivity of visible width over concatenation: a match can only be
    created or extended across the boundary, never broken, so stripping the
    concatenation removes at least as much as stripping the parts. -/
theorem visible_length_append_le (table : Char → Nat) (s t : List Char) :
    visible_length table (s ++ t) ≤ visible_length table s + visible_length table t := by
  have H : ∀ (n : Nat) (s t : List Char), s.length ≤ n →
      visible_length table (s ++ t) ≤ visible_length table s + visible_length table t := by
    intro n
    induction n with
    | zero =>
      intro s t hs
      have : s = [] := List.length_eq_zero.mp (Nat.le_zero.mp hs)
      subst this
      simp
    | succ n ih =>
      intro s t hs
      cases s with
      | nil => simp
      | cons c cs =>
        cases hsuf : ansiSuffix (c :: cs) with
        | some r =>
          have hsuf2 : ansiSuffix (c :: (cs ++ t)) = some (r ++ t) := by
            have := ansiSuffix_append t hsuf
            simpa using this
          have hlen := ansiSuffix_length hsuf
          simp only [List.length_cons] at hlen hs
          calc visible_length table ((c :: cs) ++ t)
              = visible_length table (r ++ t) := by
                unfold visible_length
                rw [List.cons_append, stripAnsi_cons_some hsuf2]
            _ ≤ visible_length table r + visible_length table t := ih r t (by omega)
            _ = visible_length table (c :: cs) + visible_length table t := by
                rw [show visible_length table (c :: cs) = visible_length table r by
                  unfold visible_length
                  rw [stripAnsi_cons_some hsuf]]
        | none =>
          cases hsuf2 : ansiSuffix (c :: (cs ++ t)) with
          | some r2 =>
            have hspan : ∃ p, t = p ++ r2 ∧ escChar ∉ p := by
              cases cs with
              | nil =>
                cases t with
                | nil => simp [hsuf] at hsuf2
                | cons c2 ts =>
                  simp only [List.nil_append] at hsuf2
                  simp only [ansiSuffix] at hsuf2
                  by_cases hc : (c == escChar && c2 == '[') = true
                  · rw [if_pos hc] at hsuf2
                    obtain ⟨p, hp, hnp, -⟩ := ansiBody_decomp hsuf2
                    refine ⟨c2 :: p, by simp [hp], ?_⟩
                    intro hmem
                    rcases List.mem_cons.mp hmem with he | he
                    · have : c2 = '[' := by
                        have := (Bool.and_eq_true _ _).mp hc
                        simpa using this.2
                      rw [this] at he
                      exact absurd he.symm (by decide)
                    · exact hnp he
                  · rw [if_neg hc] at hsuf2
                    cases hsuf2
              | cons c2 cs2 =>
                rw [List.cons_append] at hsuf2
                simp only [ansiSuffix] at hsuf hsuf2
                by_cases hc : (c == escChar && c2 == '[') = true
                · rw [if_pos hc] at hsuf hsuf2
                  exact ansiBody_span hsuf hsuf2
                · rw [if_neg hc] at hsuf2
                  cases hsuf2
            obtain ⟨p, hp, hnp⟩ := hspan
            have hvt : visible_length table t =
                ((p.map (char_display_width table)).sum) + visible_length table r2 := by
              unfold visible_length
              rw [hp, stripAnsi_noesc_append p r2 hnp]
              simp
            have hv : visible_length table ((c :: cs) ++ t) = visible_length table r2 := by
              unfold visible_length
              rw [List.cons_append, stripAnsi_cons_some hsuf2]
            omega
          | none =>
            have h1 : visible_length table ((c :: cs) ++ t) =
                char_display_width table c + visible_length table (cs ++ t) := by
              unfold visible_length
              rw [List.cons_append, stripAnsi_cons_none hsuf2]
              simp
            have h2 : visible_length table (c :: cs) =
                char_display_width table c + visible_length table cs := by
              unfold visible_length
              rw [stripAnsi_cons_none hsuf]
              simp
            have h3 := ih cs t (by simp only [List.length_cons] at hs; omega)
            omega
  exact H s.length s t le_rfl

/-- The visible width of one character. -/
theorem visible_length_singleton (table : Char → Nat) (c : Char) :
    visible_length table [c] = char_display_width table c := by
  unfold visible_length
  rw [show stripAnsi [c] = [c] from rfl]
  simp

/-- The clipping walk keeps the visible width of its output within the
    remaining budget. -/
theorem clipWalkF_vis_le (table : Char → Nat) (target : Nat) :
    ∀ (fuel : Nat) (text : List Char) (used : Nat),
    visible_length table (clipWalkF table target fuel text used) ≤ target - used := by
  intro fuel
  induction fuel with
  | zero =>
    intro text used
    simp [clipWalkF, visible_length, stripAnsi, stripAnsiF]
  | succ fuel ih =>
    intro text used
    cases text with
    | nil => simp [clipWalkF, visible_length, stripAnsi, stripAnsiF]
    | cons c cs =>
      unfold clipWalkF
      by_cases hused : used ≥ target
      · rw [if_pos hused]
        simp [visible_length, stripAnsi, stripAnsiF]
      · rw [if_neg hused]
        cases hsuf : ansiSuffix (c :: cs) with
        | some rest =>
          have hv : visible_length table
              ((c :: cs).take ((c :: cs).length - rest.length) ++
                clipWalkF table target fuel rest used) =
              visible_length table (clipWalkF table target fuel rest used) := by
            unfold visible_length
            rw [stripAnsi_matched_append hsuf]
          rw [hv]
          exact ih rest used
        | none =>
          show visible_length table
            (if used + char_display_width table c > target then []
             else c :: clipWalkF table target fuel cs (used + char_display_width table c)) ≤
            target - used
          by_cases hover : used + char_display_width table c > target
          · rw [if_pos hover]
            simp [visible_length, stripAnsi, stripAnsiF]
          · rw [if_neg hover]
            have hsub := visible_length_append_le table [c]
              (clipWalkF table target fuel cs (used + char_display_width table c))
            rw [visible_length_singleton] at hsub
            have hrec := ih cs (used + char_display_width table c)
            simp only [List.singleton_append] at hsub
            omega

/-- visible_length of the reset marker is 0 (it strips to nothing). -/
theorem visible_length_RESET (table : Char → Nat) : visible_length table RESET = 0 := by
  unfold visible_length
  rw [show stripAnsi RESET = [] from rfl]
  rfl

/-- C8, amended: for every width table assigning the dot width 1, every text
    and every width, the visible width of the clipped text never exceeds the
    target; and when the target is positive and the text already fits, it is
    returned unchanged.  (As stated, the already-fits clause also covered
    width 0, where the code returns the empty string instead; see the
    counterexample.) -/
theorem c8_clip_visible_width (table : Char → Nat) (text : List Char) (w : Nat)
    (hdot : table '.' = 1) :
    visible_length table (clip_visible table text w defaultEllipsis) ≤ w ∧
    (0 < w → visible_length table text ≤ w →
      clip_visible table text w defaultEllipsis = text) := by
  constructor
  · unfold clip_visible
    by_cases h0 : w = 0
    · rw [if_pos h0]
      simp [visible_length, stripAnsi, stripAnsiF]
    · rw [if_neg h0]
      by_cases hfits : visible_length table text ≤ w
      · rw [if_pos hfits]
        exact hfits
      · rw [if_neg hfits]
        by_cases hell : visible_length table defaultEllipsis ≥ w
        · rw [if_pos hell]
          have hnoesc : escChar ∉ List.replicate w '.' := by
            intro hmem
            have := List.eq_of_mem_replicate hmem
            exact absurd this (by decide)
          unfold visible_length
          rw [stripAnsi_noesc _ hnoesc]
          have : ∀ k, ((List.replicate k '.').map (char_display_width table)).sum = k := by
            intro k
            induction k with
            | zero => rfl
            | succ k ihk =>
              rw [List.replicate_succ]
              simp only [List.map_cons, List.sum_cons, ihk]
              unfold char_display_width
              rw [if_neg (by decide), if_neg (by decide), hdot]
              omega
          rw [this w]
        · rw [if_neg hell]
          push_neg at hell
          have hcore : ∀ targetWidth, visible_length table (clipCore table targetWidth text) ≤
              targetWidth := by
            intro targetWidth
            unfold clipCore
            have hwalk := clipWalkF_vis_le table targetWidth text.length text 0
            by_cases hcond : (ansiSearch (clipWalkF table targetWidth text.length text 0) &&
                !(RESET.isSuffixOf (clipWalkF table targetWidth text.length text 0))) = true
            · rw [if_pos hcond]
              have happ := visible_length_append_le table
                (clipWalkF table targetWidth text.length text 0) RESET
              rw [visible_length_RESET] at happ
              omega
            · rw [if_neg hcond]
              omega
          have happ := visible_length_append_le table
            (clipCore table (w - visible_length table defaultEllipsis) text) defaultEllipsis
          have hc := hcore (w - visible_length table defaultEllipsis)
          omega
  · intro hw hfits
    unfold clip_visible
    rw [if_neg (by omega), if_pos hfits]

/-- Witness for the amended C8 at a concrete table, text and width. -/
theorem c8_clip_visible_width_witness :
    visible_length (fun _ => 1) (clip_visible (fun _ => 1) ['a', 'b'] 5 defaultEllipsis) ≤ 5 ∧
    (0 < 5 → visible_length (fun _ => 1) ['a', 'b'] ≤ 5 →
      clip_visible (fun _ => 1) ['a', 'b'] 5 defaultEllipsis = ['a', 'b']) :=
  c8_clip_visible_width (fun _ => 1) ['a', 'b'] 5 rfl

/-- C4 counterexample: the similarity score is not symmetric; on the pair
    aba / babba the greedy matcher finds 3 matched characters in one direction
    and only 2 in the other, giving scores 3/4 and 1/2. -/
theorem c4_counterexample :
    line_similarity_score ['a', 'b', 'a'] ['b', 'a', 'b', 'b', 'a'] ≠
    line_similarity_score ['b', 'a', 'b', 'b', 'a'] ['a', 'b', 'a'] := by
  have h1 : totalMatched false ['a', 'b', 'a'] ['b', 'a', 'b', 'b', 'a'] = 3 := by decide
  have h2 : totalMatched false ['b', 'a', 'b', 'b', 'a'] ['a', 'b', 'a'] = 2 := by decide
  have h3 : findWords ['a', 'b', 'a'] = [['a', 'b', 'a']] := by decide
  have h4 : findWords ['b', 'a', 'b', 'b', 'a'] = [['b', 'a', 'b', 'b', 'a']] := by decide
  have h5 : totalMatched false [['a', 'b', 'a']] [['b', 'a', 'b', 'b', 'a']] = 0 := by decide
  have h6 : totalMatched false [['b', 'a', 'b', 'b', 'a']] [['a', 'b', 'a']] = 0 := by decide
  unfold line_similarity_score ratioQ
  simp only [h1, h2, h3, h4, h5, h6, List.length_cons, List.length_nil, List.isEmpty_cons,
    List.isEmpty_nil]
  norm_num [max_def]

/-! ### C3: the large-block fallback -/

theorem zip_range'_eq : ∀ (n1 n2 a b : Nat),
    (List.range' a n1).zip (List.range' b n2) =
    (List.range (min n1 n2)).map (fun k => (a + k, b + k)) := by
  intro n1
  induction n1 with
  | zero => intro n2 a b; simp
  | succ n1 ih =>
    intro n2 a b
    cases n2 with
    | zero => simp
    | succ n2 =>
      rw [List.range'_succ, List.range'_succ, Nat.succ_min_succ, List.range_succ_eq_map]
      simp only [List.zip_cons_cons, List.map_cons, List.map_map]
      rw [ih n2 (a + 1) (b + 1)]
      refine List.cons_eq_cons.mpr ⟨by simp, ?_⟩
      apply List.map_congr_left
      intro k hk
      show (a + 1 + k, b + 1 + k) = (a + (k + 1), b + (k + 1))
      have h1 : a + 1 + k = a + (k + 1) := by omega
      have h2 : b + 1 + k = b + (k + 1) := by omega
      rw [h1, h2]

theorem range'_eq_range' (a1 n1 a2 n2 : Nat) (hn : n1 = n2) (ha : n1 ≠ 0 → a1 = a2) :
    List.range' a1 n1 = List.range' a2 n2 := by
  subst hn
  cases n1 with
  | zero => rw [List.range'_zero, List.range'_zero]
  | succ n => rw [ha (by omega)]

theorem drop_range'_eq : ∀ (n k a : Nat),
    (List.range' a n).drop k = List.range' (a + k) (n - k) := by
  intro n
  induction n with
  | zero => intro k a; simp
  | succ n ih =>
    intro k a
    cases k with
    | zero => simp
    | succ k =>
      rw [List.range'_succ]
      simp only [List.drop_succ_cons]
      rw [ih k (a + 1)]
      have h1 : a + 1 + k = a + (k + 1) := by omega
      have h2 : n - k = n + 1 - (k + 1) := by omega
      rw [h1, h2]

/-- Every equal opcode emitted by get_opcodes has ranges of the same length. -/
theorem opcodesFromBlocks_equal_sizes :
    ∀ (blocks : List (Nat × Nat × Nat)) (i j : Nat), ∀ op ∈ opcodesFromBlocks i j blocks,
    op.tag = OpTag.equal → op.i2 - op.i1 = op.j2 - op.j1 := by
  intro blocks
  induction blocks with
  | nil => intro i j op hmem; simp [opcodesFromBlocks] at hmem
  | cons blk rest ih =>
    intro i j op hmem htag
    obtain ⟨ai, bj, size⟩ := blk
    unfold opcodesFromBlocks at hmem
    rcases List.mem_append.mp hmem with hm | hm
    · rcases List.mem_append.mp hm with hgap | heq
      · split_ifs at hgap <;> simp_all
      · by_cases hsize : size ≠ 0
        · rw [if_pos hsize] at heq
          simp only [List.mem_singleton] at heq
          subst heq
          simp only
          omega
        · rw [if_neg hsize] at heq
          simp at heq
    · exact ih (ai + size) (bj + size) op hm htag

theorem fallbackRowsOfOpcode_eq_spec (old_chunk new_chunk : List (List Char))
    (old_start new_start : Nat) (op : Opcode)
    (hequal : op.tag = OpTag.equal → op.i2 - op.i1 = op.j2 - op.j1) :
    fallbackRowsOfOpcode old_chunk new_chunk old_start new_start op =
    specFallbackRowsOfOpcode old_chunk new_chunk old_start new_start op := by
  cases htag : op.tag with
  | equal =>
    have hlen := hequal htag
    unfold fallbackRowsOfOpcode specFallbackRowsOfOpcode
    simp only [htag]
    rw [zip_range'_eq, ← hlen, min_self, List.map_map]
    apply List.map_congr_left
    intro k hk
    rfl
  | delete =>
    unfold fallbackRowsOfOpcode specFallbackRowsOfOpcode
    simp only [htag]
  | insert =>
    unfold fallbackRowsOfOpcode specFallbackRowsOfOpcode
    simp only [htag]
  | replace =>
    unfold fallbackRowsOfOpcode specFallbackRowsOfOpcode
    simp only [htag]
    rw [zip_range'_eq, List.map_map, drop_range'_eq, drop_range'_eq]
    rw [show List.range' (op.i1 + (op.j2 - op.j1)) (op.i2 - op.i1 - (op.j2 - op.j1)) =
          List.range' (op.i1 + min (op.i2 - op.i1) (op.j2 - op.j1))
            (op.i2 - (op.i1 + min (op.i2 - op.i1) (op.j2 - op.j1))) from
        range'_eq_range' _ _ _ _ (by omega) (fun h => by omega)]
    rw [show List.range' (op.j1 + (op.i2 - op.i1)) (op.j2 - op.j1 - (op.i2 - op.i1)) =
          List.range' (op.j1 + min (op.i2 - op.i1) (op.j2 - op.j1))
            (op.j2 - (op.j1 + min (op.i2 - op.i1) (op.j2 - op.j1))) from
        range'_eq_range' _ _ _ _ (by omega) (fun h => by omega)]
    rfl

/-! ### C2: the DP alignment -/

theorem dpInterior_fst (p d i : WithBot ℚ) : (dpInterior p d i).1 = max (max p d) i := by
  unfold dpInterior
  by_cases h1 : d > p
  · simp only [if_pos h1]
    by_cases h2 : i > d
    · rw [if_pos h2]
      rw [max_eq_right h1.le, max_eq_right h2.le]
    · rw [if_neg h2]
      rw [max_eq_right h1.le, max_eq_left (not_lt.mp h2)]
  · simp only [if_neg h1]
    by_cases h2 : i > p
    · rw [if_pos h2]
      rw [max_eq_left (not_lt.mp h1), max_eq_right h2.le]
    · rw [if_neg h2]
      rw [max_eq_left (not_lt.mp h1), max_eq_left (not_lt.mp h2)]

theorem dpInterior_snd (p d i : WithBot ℚ) :
    (dpInterior p d i).2 =
      (if d ≤ p ∧ i ≤ p then BTOp.pair
       else if i ≤ d then BTOp.delete else BTOp.insert) := by
  unfold dpInterior
  by_cases h1 : d > p
  · simp only [if_pos h1]
    by_cases h2 : i > d
    · rw [if_pos h2, if_neg (by rintro ⟨ha, -⟩; exact absurd h1 (not_lt.mpr ha)),
        if_neg (not_le.mpr h2)]
    · rw [if_neg h2, if_neg (by rintro ⟨ha, -⟩; exact absurd h1 (not_lt.mpr ha)),
        if_pos (not_lt.mp h2)]
  · simp only [if_neg h1]
    by_cases h2 : i > p
    · rw [if_pos h2, if_neg (by rintro ⟨-, hb⟩; exact absurd h2 (not_lt.mpr hb)),
        if_neg (by intro hid; exact absurd (le_trans hid (not_lt.mp h1)) (not_le.mpr h2))]
    · rw [if_neg h2, if_pos ⟨not_lt.mp h1, not_lt.mp h2⟩]

theorem specDp_row0 (sim : Nat → Nat → ℚ) (i : Nat) :
    specDp sim i 0 = ((((i : ℚ) * gap_penalty : ℚ)) : WithBot ℚ) := by
  cases i <;> simp [specDp]

theorem specDp_col0 (sim : Nat → Nat → ℚ) (j : Nat) :
    specDp sim 0 j = ((((j : ℚ) * gap_penalty : ℚ)) : WithBot ℚ) := by
  simp [specDp]

/-- The DP values filled by the source coincide with the specified DP. -/
theorem dpCell_fst_spec (sim : Nat → Nat → ℚ) (i j : Nat) :
    (dpCell sim i j).1 = specDp sim i j := by
  have H : ∀ (n i j : Nat), i + j ≤ n → (dpCell sim i j).1 = specDp sim i j := by
    intro n
    induction n with
    | zero =>
      intro i j h
      have hi : i = 0 := by omega
      have hj : j = 0 := by omega
      subst hi
      subst hj
      simp only [dpCell, specDp_col0]
      norm_num
    | succ n ih =>
      intro i j h
      match i, j with
      | 0, 0 =>
        simp only [dpCell, specDp_col0]
        norm_num
      | i + 1, 0 =>
        simp only [dpCell]
        rw [ih i 0 (by omega), specDp_row0, specDp_row0, ← WithBot.coe_add]
        congr 1
        push_cast
        ring
      | 0, j + 1 =>
        simp only [dpCell]
        rw [ih 0 j (by omega), specDp_col0, specDp_col0, ← WithBot.coe_add]
        congr 1
        push_cast
        ring
      | i + 1, j + 1 =>
        simp only [dpCell]
        rw [dpInterior_fst, ih i j (by omega), ih i (j + 1) (by omega), ih (i + 1) j (by omega)]
        rw [show specDp sim (i + 1) (j + 1) =
          max (max (if pair_threshold ≤ sim i j
                    then specDp sim i j + ((sim i j : ℚ) : WithBot ℚ) else ⊥)
               (specDp sim i (j + 1) + (gap_penalty : WithBot ℚ)))
              (specDp sim (i + 1) j + (gap_penalty : WithBot ℚ)) from by simp [specDp]]
  exact H (i + j) i j le_rfl

/-- The backtrack table filled by the source coincides with the specified
    preference-order choice. -/
theorem dpCell_snd_spec (sim : Nat → Nat → ℚ) (i j : Nat) :
    (dpCell sim i j).2 = specOp sim i j := by
  match i, j with
  | 0, 0 => simp [dpCell, specOp]
  | i + 1, 0 => simp [dpCell, specOp]
  | 0, j + 1 => simp [dpCell, specOp]
  | i + 1, j + 1 =>
    simp only [dpCell]
    rw [dpInterior_snd, dpCell_fst_spec, dpCell_fst_spec, dpCell_fst_spec]
    rw [show specOp sim (i + 1) (j + 1) =
      (if specDp sim i (j + 1) + (gap_penalty : WithBot ℚ) ≤ specPair sim i j ∧
          specDp sim (i + 1) j + (gap_penalty : WithBot ℚ) ≤ specPair sim i j then BTOp.pair
       else if specDp sim (i + 1) j + (gap_penalty : WithBot ℚ) ≤
          specDp sim i (j + 1) + (gap_penalty : WithBot ℚ) then BTOp.delete
       else BTOp.insert) from by simp [specOp]]
    unfold specPair
    rfl

/-- backtrackF only depends on the backtrack table pointwise. -/
theorem backtrackF_congr (old_chunk new_chunk : List (List Char))
    (bt1 bt2 : Nat → Nat → BTOp) (hbt : ∀ i j, bt1 i j = bt2 i j) :
    ∀ (fuel i j : Nat),
    backtrackF old_chunk new_chunk bt1 fuel i j = backtrackF old_chunk new_chunk bt2 fuel i j := by
  intro fuel
  induction fuel with
  | zero => intro i j; rfl
  | succ fuel ih =>
    intro i j
    unfold backtrackF
    rw [hbt i j]
    by_cases h : i = 0 ∧ j = 0
    · rw [if_pos h, if_pos h]
    · rw [if_neg h, if_neg h]
      cases bt2 i j <;> simp only [ih]

/-- C2: when n * m is at most 50000, the aligner computes exactly the
    specified dynamic program: the base cases are i and j times the gap
    penalty; interior cells are the maximum of the eligibility-gated pair
    score (negative infinity below the threshold), the delete score and the
    insert score; the recorded transition is the pair whenever it attains the
    maximum, else delete when it is at least insert, else insert (the fixed
    pair > delete > insert preference); and the emitted rows are exactly the
    backtracking of the specified tables from (n, m) in old-to-new order,
    with Equal versus Replace decided by textual identity of the paired
    lines. -/
theorem c2_dp_alignment (old_chunk new_chunk : List (List Char)) (old_start new_start : Nat)
    (h : old_chunk.length * new_chunk.length ≤ 50000) :
    (∀ i, (dpCell (simMatrix old_chunk new_chunk) i 0).1 =
      ((((i : ℚ) * gap_penalty : ℚ)) : WithBot ℚ)) ∧
    (∀ j, (dpCell (simMatrix old_chunk new_chunk) 0 j).1 =
      ((((j : ℚ) * gap_penalty : ℚ)) : WithBot ℚ)) ∧
    (∀ i j, (dpCell (simMatrix old_chunk new_chunk) (i + 1) (j + 1)).1 =
      max (max (specPair (simMatrix old_chunk new_chunk) i j)
          ((dpCell (simMatrix old_chunk new_chunk) i (j + 1)).1 + (gap_penalty : WithBot ℚ)))
        ((dpCell (simMatrix old_chunk new_chunk) (i + 1) j).1 + (gap_penalty : WithBot ℚ))) ∧
    (∀ i j, (dpCell (simMatrix old_chunk new_chunk) i j).2 =
      specOp (simMatrix old_chunk new_chunk) i j) ∧
    iter_aligned_chunk_rows old_chunk new_chunk old_start new_start =
      specAlignedRows old_chunk new_chunk old_start new_start := by
  refine ⟨?_, ?_, ?_, ?_, ?_⟩
  · intro i
    rw [dpCell_fst_spec, specDp_row0]
  · intro j
    rw [dpCell_fst_spec, specDp_col0]
  · intro i j
    simp only [dpCell]
    rw [dpInterior_fst]
    unfold specPair
    rw [dpCell_fst_spec]
  · intro i j
    exact dpCell_snd_spec (simMatrix old_chunk new_chunk) i j
  · unfold iter_aligned_chunk_rows specAlignedRows
    rw [if_neg (by omega)]
    rw [backtrackF_congr old_chunk new_chunk _ _
      (fun i j => dpCell_snd_spec (simMatrix old_chunk new_chunk) i j)]

/-- Witness for C2 at a concrete one-line block pair. -/
theorem c2_dp_alignment_witness :
    (∀ i, (dpCell (simMatrix [['a']] [['a']]) i 0).1 =
      ((((i : ℚ) * gap_penalty : ℚ)) : WithBot ℚ)) ∧
    (∀ j, (dpCell (simMatrix [['a']] [['a']]) 0 j).1 =
      ((((j : ℚ) * gap_penalty : ℚ)) : WithBot ℚ)) ∧
    (∀ i j, (dpCell (simMatrix [['a']] [['a']]) (i + 1) (j + 1)).1 =
      max (max (specPair (simMatrix [['a']] [['a']]) i j)
          ((dpCell (simMatrix [['a']] [['a']]) i (j + 1)).1 + (gap_penalty : WithBot ℚ)))
        ((dpCell (simMatrix [['a']] [['a']]) (i + 1) j).1 + (gap_penalty : WithBot ℚ))) ∧
    (∀ i j, (dpCell (simMatrix [['a']] [['a']]) i j).2 =
      specOp (simMatrix [['a']] [['a']]) i j) ∧
    iter_aligned_chunk_rows [['a']] [['a']] 0 0 = specAlignedRows [['a']] [['a']] 0 0 :=
  c2_dp_alignment [['a']] [['a']] 0 0 (by decide)

/-- C3: for every pair of blocks whose size product exceeds 50000, the aligner
    never runs the quadratic DP and instead emits exactly the positional
    greedy pairing over the generic opcode decomposition: equal runs as Equal
    rows, replace runs paired index-for-index up to the shorter length with
    the leftover as trailing Delete or Insert rows, and lone delete/insert
    runs as Delete/Insert rows.  Every definition involved is total, so the
    call terminates on every input. -/
theorem c3_fallback_positional_greedy (old_chunk new_chunk : List (List Char))
    (old_start new_start : Nat)
    (h : old_chunk.length * new_chunk.length > 50000) :
    iter_aligned_chunk_rows old_chunk new_chunk old_start new_start =
      positionalGreedyRows old_chunk new_chunk old_start new_start := by
  unfold iter_aligned_chunk_rows positionalGreedyRows
  rw [if_pos h]
  have key : ∀ (ops : List Opcode),
      (∀ op ∈ ops, op.tag = OpTag.equal → op.i2 - op.i1 = op.j2 - op.j1) →
      ((ops.map (fallbackRowsOfOpcode old_chunk new_chunk old_start new_start)).flatten =
        ops.flatMap (specFallbackRowsOfOpcode old_chunk new_chunk old_start new_start)) := by
    intro ops hprop
    induction ops with
    | nil => rfl
    | cons op rest ih =>
      simp only [List.map_cons, List.flatten_cons, List.flatMap_cons]
      rw [fallbackRowsOfOpcode_eq_spec old_chunk new_chunk old_start new_start op
        (hprop op (by simp)), ih (fun o ho => hprop o (by simp [ho]))]
  exact key _ (fun op hop => opcodesFromBlocks_equal_sizes _ 0 0 op hop)

/-- Witness for C3 at the claimed 300-by-300 block (90000 > 50000). -/
theorem c3_fallback_positional_greedy_witness :
    iter_aligned_chunk_rows (List.replicate 300 ['a']) (List.replicate 300 ['b']) 0 0 =
      positionalGreedyRows (List.replicate 300 ['a']) (List.replicate 300 ['b']) 0 0 :=
  c3_fallback_positional_greedy (List.replicate 300 ['a']) (List.replicate 300 ['b']) 0 0
    (by rw [List.length_replicate, List.length_replicate]; norm_num)

/-! ### C1: index coverage of the aligner -/

theorem dpCell_bt_row (sim : Nat → Nat → ℚ) (i : Nat) :
    (dpCell sim (i + 1) 0).2 = BTOp.delete := by
  simp [dpCell]

theorem dpCell_bt_col (sim : Nat → Nat → ℚ) (j : Nat) :
    (dpCell sim 0 (j + 1)).2 = BTOp.insert := by
  simp [dpCell]

theorem backtrackF_step_pair (oc nc : List (List Char)) (bt : Nat → Nat → BTOp)
    (f i j : Nat) (hne : ¬(i = 0 ∧ j = 0)) (hbt : bt i j = BTOp.pair) :
    backtrackF oc nc bt (f + 1) i j =
      (if oc.getD (i - 1) [] = nc.getD (j - 1) []
       then RowOp.equal (i - 1) (j - 1) else RowOp.repl (i - 1) (j - 1)) ::
      backtrackF oc nc bt f (i - 1) (j - 1) := by
  simp only [backtrackF]
  rw [if_neg hne, hbt]

theorem backtrackF_step_del (oc nc : List (List Char)) (bt : Nat → Nat → BTOp)
    (f i j : Nat) (hne : ¬(i = 0 ∧ j = 0)) (hbt : bt i j = BTOp.delete) :
    backtrackF oc nc bt (f + 1) i j =
      RowOp.del (i - 1) :: backtrackF oc nc bt f (i - 1) j := by
  simp only [backtrackF]
  rw [if_neg hne, hbt]

theorem backtrackF_step_ins (oc nc : List (List Char)) (bt : Nat → Nat → BTOp)
    (f i j : Nat) (hne : ¬(i = 0 ∧ j = 0)) (hbt : bt i j = BTOp.insert) :
    backtrackF oc nc bt (f + 1) i j =
      RowOp.ins (j - 1) :: backtrackF oc nc bt f i (j - 1) := by
  simp only [backtrackF]
  rw [if_neg hne, hbt]

theorem backtrackF_step_start (oc nc : List (List Char)) (bt : Nat → Nat → BTOp)
    (f i j : Nat) (hne : ¬(i = 0 ∧ j = 0)) (hbt : bt i j = BTOp.start) :
    backtrackF oc nc bt (f + 1) i j =
      RowOp.ins (j - 1) :: backtrackF oc nc bt f i (j - 1) := by
  simp only [backtrackF]
  rw [if_neg hne, hbt]

theorem backtrackF_coverage (oc nc : List (List Char)) (bt : Nat → Nat → BTOp)
    (hrow : ∀ i, bt (i + 1) 0 = BTOp.delete)
    (hcol : ∀ j, bt 0 (j + 1) = BTOp.insert) :
    ∀ (fuel i j : Nat), i + j ≤ fuel →
      (backtrackF oc nc bt fuel i j).reverse.filterMap opOldIdx = List.range i ∧
      (backtrackF oc nc bt fuel i j).reverse.filterMap opNewIdx = List.range j := by
  intro fuel
  induction fuel with
  | zero =>
    intro i j h
    have hi : i = 0 := by omega
    have hj : j = 0 := by omega
    subst hi; subst hj
    simp [backtrackF]
  | succ f ih =>
    intro i j h
    match i, j with
    | 0, 0 => simp [backtrackF]
    | i + 1, 0 =>
      have hrec := ih i 0 (by omega)
      rw [backtrackF_step_del oc nc bt f (i + 1) 0 (by simp) (hrow i)]
      simp only [Nat.add_sub_cancel, List.reverse_cons, List.filterMap_append,
        hrec.1, hrec.2]
      constructor
      · simp [opOldIdx, List.range_succ]
      · simp [opNewIdx]
    | 0, j + 1 =>
      have hrec := ih 0 j (by omega)
      rw [backtrackF_step_ins oc nc bt f 0 (j + 1) (by simp) (hcol j)]
      simp only [Nat.add_sub_cancel, List.reverse_cons, List.filterMap_append,
        hrec.1, hrec.2]
      constructor
      · simp [opOldIdx]
      · simp [opNewIdx, List.range_succ]
    | i + 1, j + 1 =>
      cases hbt : bt (i + 1) (j + 1) with
      | pair =>
        have hrec := ih i j (by omega)
        rw [backtrackF_step_pair oc nc bt f (i + 1) (j + 1) (by simp) hbt]
        simp only [Nat.add_sub_cancel, List.reverse_cons, List.filterMap_append,
          hrec.1, hrec.2]
        constructor
        · simp only [List.range_succ]
          congr 1
          split <;> rfl
        · simp only [List.range_succ]
          congr 1
          split <;> rfl
      | delete =>
        have hrec := ih i (j + 1) (by omega)
        rw [backtrackF_step_del oc nc bt f (i + 1) (j + 1) (by simp) hbt]
        simp only [Nat.add_sub_cancel, List.reverse_cons, List.filterMap_append,
          hrec.1, hrec.2]
        constructor
        · simp [opOldIdx, List.range_succ]
        · simp [opNewIdx]
      | insert =>
        have hrec := ih (i + 1) j (by omega)
        rw [backtrackF_step_ins oc nc bt f (i + 1) (j + 1) (by simp) hbt]
        simp only [Nat.add_sub_cancel, List.reverse_cons, List.filterMap_append,
          hrec.1, hrec.2]
        constructor
        · simp [opOldIdx]
        · simp [opNewIdx, List.range_succ]
      | start =>
        have hrec := ih (i + 1) j (by omega)
        rw [backtrackF_step_start oc nc bt f (i + 1) (j + 1) (by simp) hbt]
        simp only [Nat.add_sub_cancel, List.reverse_cons, List.filterMap_append,
          hrec.1, hrec.2]
        constructor
        · simp [opOldIdx]
        · simp [opNewIdx, List.range_succ]

theorem foldl_inv {β γ : Type} (P : β → Prop) (f : β → γ → β) :
    ∀ (l : List γ) (init : β), P init → (∀ st x, x ∈ l → P st → P (f st x)) →
      P (l.foldl f init) := by
  intro l
  induction l with
  | nil => intro init h _; exact h
  | cons a t ih =>
    intro init h hstep
    exact ih (f init a) (hstep init a (by simp) h)
      (fun st x hx hst => hstep st x (by simp [hx]) hst)

theorem flmRow_inv (alo ahi blo bhi i : Nat) (hai : alo ≤ i) (hia : i < ahi)
    (js : List Nat) (j2len : Nat → Nat) (best : Nat × Nat × Nat)
    (hj2 : ∀ j, j2len j ≠ 0 →
      j2len j ≤ i - alo ∧ blo ≤ j ∧ j < bhi ∧ j2len j ≤ j + 1 - blo)
    (hbest : bestInRect alo ahi blo bhi best) :
    (∀ j, (flmRow blo bhi i js j2len best).1 j ≠ 0 →
        (flmRow blo bhi i js j2len best).1 j ≤ i + 1 - alo ∧ blo ≤ j ∧ j < bhi ∧
        (flmRow blo bhi i js j2len best).1 j ≤ j + 1 - blo) ∧
    bestInRect alo ahi blo bhi (flmRow blo bhi i js j2len best).2 := by
  unfold flmRow
  refine foldl_inv
    (fun st : (Nat → Nat) × (Nat × Nat × Nat) =>
      (∀ j, st.1 j ≠ 0 →
          st.1 j ≤ i + 1 - alo ∧ blo ≤ j ∧ j < bhi ∧ st.1 j ≤ j + 1 - blo) ∧
      bestInRect alo ahi blo bhi st.2)
    (fun st j =>
      let k := (if j = 0 then 0 else j2len (j - 1)) + 1
      ((fun m => if m = j then k else st.1 m),
       if k > st.2.2.2 then (i + 1 - k, j + 1 - k, k) else st.2))
    (js.filter (fun j => decide (blo ≤ j) && decide (j < bhi)))
    ((fun _ => 0), best)
    ⟨fun j hj => absurd rfl hj, hbest⟩
    ?_
  intro st j hmem hst
  dsimp only
  have hjrange : blo ≤ j ∧ j < bhi := by
    have := List.mem_filter.mp hmem
    simpa using this.2
  set k := (if j = 0 then 0 else j2len (j - 1)) + 1 with hkdef
  have hk1 : k ≤ i + 1 - alo := by
    rw [hkdef]
    split
    · omega
    · rename_i hj0
      by_cases hz : j2len (j - 1) = 0
      · rw [hz]; omega
      · have := (hj2 (j - 1) hz).1
        omega
  have hk2 : k ≤ j + 1 - blo := by
    rw [hkdef]
    split
    · omega
    · rename_i hj0
      by_cases hz : j2len (j - 1) = 0
      · rw [hz]; omega
      · have h4 := (hj2 (j - 1) hz).2.2.2
        have h2 := (hj2 (j - 1) hz).2.1
        omega
  constructor
  · intro m hm
    by_cases hmj : m = j
    · subst hmj
      simp only [if_pos rfl] at hm ⊢
      exact ⟨hk1, hjrange.1, hjrange.2, hk2⟩
    · simp only [if_neg hmj] at hm ⊢
      exact hst.1 m hm
  · split
    · unfold bestInRect
      dsimp only
      omega
    · exact hst.2

theorem flmFoldAux_inv {α : Type} [DecidableEq α] [Inhabited α] (a : List α)
    (bj : α → List Nat) (alo blo ahi bhi : Nat) :
    ∀ (len i0 : Nat), alo ≤ i0 → i0 + len ≤ ahi →
      ∀ (tbl : Nat → Nat) (best : Nat × Nat × Nat),
        (∀ j, tbl j ≠ 0 →
          tbl j ≤ i0 - alo ∧ blo ≤ j ∧ j < bhi ∧ tbl j ≤ j + 1 - blo) →
        bestInRect alo ahi blo bhi best →
        bestInRect alo ahi blo bhi
          (((List.range' i0 len).foldl
            (fun st i => flmRow blo bhi i (bj (a.getD i default)) st.1 st.2)
            (tbl, best)).2) := by
  intro len
  induction len with
  | zero => intro i0 _ _ tbl best _ hbest; simpa using hbest
  | succ n ih =>
    intro i0 h1 h2 tbl best htbl hbest
    rw [List.range'_succ, List.foldl_cons]
    have hstep : flmRow blo bhi i0 (bj (a.getD i0 default)) (tbl, best).1 (tbl, best).2
        = ((flmRow blo bhi i0 (bj (a.getD i0 default)) tbl best).1,
           (flmRow blo bhi i0 (bj (a.getD i0 default)) tbl best).2) := rfl
    rw [hstep]
    have hmain := flmRow_inv alo ahi blo bhi i0 h1 (by omega)
      (bj (a.getD i0 default)) tbl best htbl hbest
    exact ih (i0 + 1) (by omega) (by omega) _ _
      (fun j hj => ⟨by have := (hmain.1 j hj).1; omega, (hmain.1 j hj).2.1,
        (hmain.1 j hj).2.2.1, (hmain.1 j hj).2.2.2⟩)
      hmain.2

theorem flmFold_inv {α : Type} [DecidableEq α] [Inhabited α] (a : List α)
    (bj : α → List Nat) (alo ahi blo bhi : Nat) (ha : alo ≤ ahi) (hb : blo ≤ bhi) :
    bestInRect alo ahi blo bhi (flmFold a bj alo ahi blo bhi) := by
  unfold flmFold
  exact flmFoldAux_inv a bj alo blo ahi bhi (ahi - alo) alo (le_refl _) (by omega)
    (fun _ => 0) (alo, blo, 0) (fun j hj => absurd rfl hj)
    ⟨le_refl _, le_refl _, by simpa using ha, by simpa using hb⟩

theorem extendBack_inv {α : Type} [DecidableEq α] (a b : List α)
    (alo blo ahi bhi : Nat) :
    ∀ (bi bjv k : Nat), bestInRect alo ahi blo bhi (bi, bjv, k) →
      bestInRect alo ahi blo bhi (extendBack a b alo blo bi bjv k) := by
  intro bi
  induction bi with
  | zero => intro bjv k h; simpa [extendBack] using h
  | succ n ih =>
    intro bjv k h
    simp only [extendBack]
    split
    · rename_i hcond
      simp only [Bool.and_eq_true, decide_eq_true_eq] at hcond
      apply ih
      unfold bestInRect at h ⊢
      dsimp only at h ⊢
      omega
    · exact h

theorem extendFwdF_le {α : Type} [DecidableEq α] (a b : List α) (ahi bhi bi bjv : Nat) :
    ∀ (fuel k : Nat), bi + k ≤ ahi → bjv + k ≤ bhi →
      bi + extendFwdF a b ahi bhi bi bjv fuel k ≤ ahi ∧
      bjv + extendFwdF a b ahi bhi bi bjv fuel k ≤ bhi := by
  intro fuel
  induction fuel with
  | zero => intro k h1 h2; exact ⟨h1, h2⟩
  | succ n ih =>
    intro k h1 h2
    simp only [extendFwdF]
    split
    · rename_i hcond
      simp only [Bool.and_eq_true, decide_eq_true_eq] at hcond
      exact ih (k + 1) (by omega) (by omega)
    · exact ⟨h1, h2⟩

theorem find_longest_match_inRect {α : Type} [DecidableEq α] [Inhabited α]
    (a b : List α) (bj : α → List Nat) (alo ahi blo bhi : Nat)
    (ha : alo ≤ ahi) (hb : blo ≤ bhi) :
    bestInRect alo ahi blo bhi (find_longest_match a b bj alo ahi blo bhi) := by
  unfold find_longest_match
  dsimp only
  have h1 : bestInRect alo ahi blo bhi (flmFold a bj alo ahi blo bhi) :=
    flmFold_inv a bj alo ahi blo bhi ha hb
  have h2 : bestInRect alo ahi blo bhi
      (extendBack a b alo blo (flmFold a bj alo ahi blo bhi).1
        (flmFold a bj alo ahi blo bhi).2.1 (flmFold a bj alo ahi blo bhi).2.2) := by
    apply extendBack_inv
    simpa using h1
  have h3 := extendFwdF_le a b ahi bhi
    (extendBack a b alo blo (flmFold a bj alo ahi blo bhi).1
      (flmFold a bj alo ahi blo bhi).2.1 (flmFold a bj alo ahi blo bhi).2.2).1
    (extendBack a b alo blo (flmFold a bj alo ahi blo bhi).1
      (flmFold a bj alo ahi blo bhi).2.1 (flmFold a bj alo ahi blo bhi).2.2).2.1
    ahi
    (extendBack a b alo blo (flmFold a bj alo ahi blo bhi).1
      (flmFold a bj alo ahi blo bhi).2.1 (flmFold a bj alo ahi blo bhi).2.2).2.2
    h2.2.2.1 h2.2.2.2
  exact ⟨h2.1, h2.2.1, h3.1, h3.2⟩

theorem mbLoopF_inv {α : Type} [DecidableEq α] [Inhabited α] (a b : List α)
    (bj : α → List Nat) (la lb : Nat) :
    ∀ (fuel : Nat) (Q : List (Nat × Nat × Nat × Nat)) (acc : List (Nat × Nat × Nat)),
      (∀ r ∈ Q, rectWF la lb r) →
      (∀ y ∈ acc, y.2.2 ≠ 0 ∧ blockBounded la lb y) →
      List.Pairwise (fun y z => blockCompat y z ∨ blockCompat z y) acc →
      (∀ y ∈ acc, ∀ r ∈ Q, blockBeforeRect y r ∨ rectBeforeBlock r y) →
      List.Pairwise (fun r s => rectBefore s r) Q →
      (∀ y ∈ mbLoopF a b bj fuel Q acc, y.2.2 ≠ 0 ∧ blockBounded la lb y) ∧
      List.Pairwise (fun y z => blockCompat y z ∨ blockCompat z y)
        (mbLoopF a b bj fuel Q acc) := by
  intro fuel
  induction fuel with
  | zero =>
    intro Q acc _ hacc hpair _ _
    exact ⟨hacc, hpair⟩
  | succ f ih =>
    intro Q acc hQwf hacc hpair haccQ hQpair
    rcases Q with _ | ⟨⟨alo, ahi, blo, bhi⟩, queue⟩
    · exact ⟨hacc, hpair⟩
    have hhead : rectWF la lb (alo, ahi, blo, bhi) := hQwf _ (by simp)
    unfold rectWF at hhead
    dsimp only at hhead
    have hx := find_longest_match_inRect a b bj alo ahi blo bhi hhead.1 hhead.2.2.1
    unfold bestInRect at hx
    simp only [mbLoopF]
    set x := find_longest_match a b bj alo ahi blo bhi with hxdef
    have hQtail : List.Pairwise (fun r s => rectBefore s r) queue :=
      (List.pairwise_cons.mp hQpair).2
    have hQhead : ∀ s ∈ queue, rectBefore s (alo, ahi, blo, bhi) :=
      (List.pairwise_cons.mp hQpair).1
    by_cases hk : x.2.2 = 0
    · rw [if_neg (by omega)]
      exact ih queue acc
        (fun r hr => hQwf r (List.mem_cons_of_mem _ hr))
        hacc hpair
        (fun y hy r hr => haccQ y hy r (List.mem_cons_of_mem _ hr))
        hQtail
    · rw [if_pos hk]
      have hA : ∀ r ∈ (if x.1 + x.2.2 < ahi ∧ x.2.1 + x.2.2 < bhi
          then [(x.1 + x.2.2, ahi, x.2.1 + x.2.2, bhi)] else []),
          r = (x.1 + x.2.2, ahi, x.2.1 + x.2.2, bhi) := by
        intro r hr
        revert hr; split
        · intro hr; simpa using hr
        · intro hr; simp at hr
      have hB : ∀ r ∈ (if alo < x.1 ∧ blo < x.2.1
          then [(alo, x.1, blo, x.2.1)] else []), r = (alo, x.1, blo, x.2.1) := by
        intro r hr
        revert hr; split
        · intro hr; simpa using hr
        · intro hr; simp at hr
      have hmemQ : ∀ r ∈ (if x.1 + x.2.2 < ahi ∧ x.2.1 + x.2.2 < bhi
            then [(x.1 + x.2.2, ahi, x.2.1 + x.2.2, bhi)] else []) ++
          (if alo < x.1 ∧ blo < x.2.1 then [(alo, x.1, blo, x.2.1)] else []) ++ queue,
          r = (x.1 + x.2.2, ahi, x.2.1 + x.2.2, bhi) ∨
          r = (alo, x.1, blo, x.2.1) ∨ r ∈ queue := by
        intro r hr
        rcases List.mem_append.mp hr with h | h
        · rcases List.mem_append.mp h with h2 | h2
          · exact Or.inl (hA r h2)
          · exact Or.inr (Or.inl (hB r h2))
        · exact Or.inr (Or.inr h)
      have hwf1 : rectWF la lb (x.1 + x.2.2, ahi, x.2.1 + x.2.2, bhi) := by
        unfold rectWF; dsimp only; omega
      have hwf2 : rectWF la lb (alo, x.1, blo, x.2.1) := by
        unfold rectWF; dsimp only; omega
      apply ih
      · intro r hr
        rcases hmemQ r hr with h | h | h
        · rw [h]; exact hwf1
        · rw [h]; exact hwf2
        · exact hQwf r (List.mem_cons_of_mem _ h)
      · intro y hy
        rcases List.mem_append.mp hy with h | h
        · exact hacc y h
        · have hyx : y = x := by simpa using h
          rw [hyx]
          refine ⟨hk, ?_⟩
          unfold blockBounded; omega
      · rw [List.pairwise_append]
        refine ⟨hpair, by simp, ?_⟩
        intro y hy z hz
        have hzx : z = x := by simpa using hz
        rw [hzx]
        rcases haccQ y hy (alo, ahi, blo, bhi) (by simp) with h | h
        · left
          unfold blockBeforeRect at h; unfold blockCompat
          dsimp only at h
          omega
        · right
          unfold rectBeforeBlock at h; unfold blockCompat
          dsimp only at h
          omega
      · intro y hy r hr
        rcases List.mem_append.mp hy with hya | hyx
        · rcases hmemQ r hr with h | h | h
          · rw [h]
            rcases haccQ y hya (alo, ahi, blo, bhi) (by simp) with hside | hside
            · left
              unfold blockBeforeRect at hside ⊢; dsimp only at hside ⊢; omega
            · right
              unfold rectBeforeBlock at hside ⊢; dsimp only at hside ⊢; omega
          · rw [h]
            rcases haccQ y hya (alo, ahi, blo, bhi) (by simp) with hside | hside
            · left
              unfold blockBeforeRect at hside ⊢; dsimp only at hside ⊢; omega
            · right
              unfold rectBeforeBlock at hside ⊢; dsimp only at hside ⊢; omega
          · exact haccQ y hya r (List.mem_cons_of_mem _ h)
        · have hyx2 : y = x := by simpa using hyx
          rw [hyx2]
          rcases hmemQ r hr with h | h | h
          · left; rw [h]
            unfold blockBeforeRect; dsimp only; omega
          · right; rw [h]
            unfold rectBeforeBlock; dsimp only; omega
          · right
            have hbef := hQhead r h
            unfold rectBefore at hbef; unfold rectBeforeBlock
            dsimp only at hbef
            omega
      · rw [List.pairwise_append, List.pairwise_append]
        refine ⟨⟨?_, ?_, ?_⟩, hQtail, ?_⟩
        · split <;> simp
        · split <;> simp
        · intro r hr s hs
          rw [hA r hr, hB s hs]
          unfold rectBefore; dsimp only; omega
        · intro r hr s hs
          have hbef := hQhead s hs
          unfold rectBefore at hbef ⊢
          rcases List.mem_append.mp hr with h2 | h2
          · rw [hA r h2]; dsimp only at hbef ⊢; omega
          · rw [hB r h2]; dsimp only at hbef ⊢; omega

theorem range'_add_append : ∀ (m s n : Nat),
    List.range' s m ++ List.range' (s + m) n = List.range' s (m + n) := by
  intro m
  induction m with
  | zero => intro s n; simp
  | succ p ih =>
    intro s n
    rw [List.range'_succ]
    rw [show s + (p + 1) = s + 1 + p by omega]
    rw [List.cons_append, ih (s + 1) n]
    rw [show p + 1 + n = p + n + 1 by omega]
    rw [List.range'_succ]

theorem filterMap_some_fun {β γ : Type} (f : β → γ) (l : List β) :
    l.filterMap (fun x => some (f x)) = l.map f := by
  induction l with
  | nil => rfl
  | cons a t ih => simp [List.filterMap_cons, ih]

theorem filterMap_none_fun {β γ : Type} (l : List β) :
    l.filterMap (fun _ => (none : Option γ)) = [] := by
  induction l with
  | nil => rfl
  | cons a t ih => simp [List.filterMap_cons, ih]

theorem sorted_blocks_compat (l : List (Nat × Nat × Nat))
    (hk : ∀ y ∈ l, y.2.2 ≠ 0)
    (hco : List.Pairwise (fun y z => blockCompat y z ∨ blockCompat z y) l) :
    List.Pairwise blockCompat (List.insertionSort blockLe l) := by
  have hperm : List.Perm (List.insertionSort blockLe l) l :=
    List.perm_insertionSort blockLe l
  have hsorted : List.Pairwise blockLe (List.insertionSort blockLe l) :=
    List.sorted_insertionSort blockLe l
  have hco2 : List.Pairwise (fun y z => blockCompat y z ∨ blockCompat z y)
      (List.insertionSort blockLe l) :=
    (hperm.pairwise_iff (fun h => h.symm)).mpr hco
  have hk2 : ∀ y ∈ List.insertionSort blockLe l, y.2.2 ≠ 0 :=
    fun y hy => hk y (hperm.mem_iff.mp hy)
  refine (hsorted.and hco2).imp_of_mem ?_
  intro y z hy hz hyz
  obtain ⟨hle, hor⟩ := hyz
  rcases hor with h | h
  · exact h
  · have hzk := hk2 z hz
    unfold blockCompat at h ⊢
    unfold blockLe at hle
    omega

theorem chainedBlocks_le :
    ∀ (blocks : List (Nat × Nat × Nat)) (i j la lb : Nat),
      chainedBlocks i j la lb blocks → i ≤ la ∧ j ≤ lb := by
  intro blocks
  induction blocks with
  | nil =>
    intro i j la lb h
    simp only [chainedBlocks] at h
    omega
  | cons hd tl ih =>
    obtain ⟨ai, bj, k⟩ := hd
    intro i j la lb h
    simp only [chainedBlocks] at h
    have := ih (ai + k) (bj + k) la lb h.2.2
    omega

theorem collapse_chained (la lb : Nat) :
    ∀ (l : List (Nat × Nat × Nat)) (i1 j1 k1 : Nat),
      List.Pairwise blockCompat ((i1, j1, k1) :: l) →
      (∀ y ∈ (i1, j1, k1) :: l, blockBounded la lb y) →
      ∀ i0 j0, i0 ≤ i1 → j0 ≤ j1 →
        chainedBlocks i0 j0 la lb
          (collapseAdjacent (i1, j1, k1) l ++ [(la, lb, 0)]) := by
  intro l
  induction l with
  | nil =>
    intro i1 j1 k1 hpw hbd i0 j0 h1 h2
    have hb1 : blockBounded la lb (i1, j1, k1) := hbd _ (by simp)
    unfold blockBounded at hb1
    dsimp only at hb1
    simp only [collapseAdjacent]
    split
    · rw [List.singleton_append]
      simp only [chainedBlocks]
      omega
    · rw [List.nil_append]
      simp only [chainedBlocks]
      omega
  | cons nxt rest ih =>
    obtain ⟨i2, j2, k2⟩ := nxt
    intro i1 j1 k1 hpw hbd i0 j0 h1 h2
    have hpw1 := List.pairwise_cons.mp hpw
    have hpw2 := List.pairwise_cons.mp hpw1.2
    have hc12 : blockCompat (i1, j1, k1) (i2, j2, k2) := hpw1.1 _ (by simp)
    unfold blockCompat at hc12
    dsimp only at hc12
    simp only [collapseAdjacent]
    split
    · rename_i hadj
      apply ih i1 j1 (k1 + k2) ?pw ?bd i0 j0 h1 h2
      case pw =>
        rw [List.pairwise_cons]
        refine ⟨?_, hpw2.2⟩
        intro y hy
        have hcy := hpw2.1 y hy
        unfold blockCompat at hcy ⊢
        dsimp only at hcy ⊢
        omega
      case bd =>
        intro y hy
        rcases List.mem_cons.mp hy with h | h
        · rw [h]
          have hb2 := hbd (i2, j2, k2) (by simp)
          unfold blockBounded at hb2 ⊢
          dsimp only at hb2 ⊢
          omega
        · exact hbd y (by simp [h])
    · rename_i hnadj
      rw [List.append_assoc]
      have hbd2 : ∀ y ∈ (i2, j2, k2) :: rest, blockBounded la lb y :=
        fun y hy => hbd y (List.mem_cons_of_mem _ hy)
      split
      · rw [List.singleton_append]
        simp only [chainedBlocks]
        refine ⟨h1, h2, ?_⟩
        exact ih i2 j2 k2 hpw1.2 hbd2 (i1 + k1) (j1 + k1) (by omega) (by omega)
      · rw [List.nil_append]
        exact ih i2 j2 k2 hpw1.2 hbd2 i0 j0 (by omega) (by omega)

theorem get_matching_blocks_chained {α : Type} [DecidableEq α] [Inhabited α]
    (autojunk : Bool) (a b : List α) :
    chainedBlocks 0 0 a.length b.length (get_matching_blocks autojunk a b) := by
  unfold get_matching_blocks
  have hfound := mbLoopF_inv a b (b2j autojunk b) a.length b.length
    (a.length + b.length + 1) [(0, a.length, 0, b.length)] []
    (fun r hr => by
      have hre : r = (0, a.length, 0, b.length) := by simpa using hr
      rw [hre]; unfold rectWF; dsimp only; omega)
    (fun y hy => by simp at hy)
    (by simp)
    (fun y hy => by simp at hy)
    (by simp)
  set found := mbLoopF a b (b2j autojunk b) (a.length + b.length + 1)
    [(0, a.length, 0, b.length)] [] with hfd
  apply collapse_chained
  · rw [List.pairwise_cons]
    constructor
    · intro y hy
      unfold blockCompat; dsimp only; omega
    · exact sorted_blocks_compat found (fun y hy => (hfound.1 y hy).1) hfound.2
  · intro y hy
    rcases List.mem_cons.mp hy with h | h
    · rw [h]; unfold blockBounded; dsimp only; omega
    · have hmem : y ∈ found :=
        (List.perm_insertionSort blockLe found).mem_iff.mp h
      exact (hfound.1 y hmem).2
  · omega
  · omega

theorem fallback_oldNo (oc nc : List (List Char)) (os ns : Nat) (op : Opcode)
    (h : op.i1 ≤ op.i2) (hins : op.tag = OpTag.insert → op.i2 = op.i1) :
    (fallbackRowsOfOpcode oc nc os ns op).filterMap rowOldNo
      = (List.range' op.i1 (op.i2 - op.i1)).map (fun idx => os + idx + 1) := by
  cases htag : op.tag with
  | equal =>
    unfold fallbackRowsOfOpcode
    simp only [htag]
    rw [List.filterMap_map]
    have hc : (rowOldNo ∘ fun idx =>
        Row.equal (os + (op.i1 + idx) + 1) (oc.getD (op.i1 + idx) [])
          (ns + (op.j1 + idx) + 1) (nc.getD (op.j1 + idx) []))
        = fun idx => some (os + (op.i1 + idx) + 1) := rfl
    rw [hc, filterMap_some_fun, List.range'_eq_map_range, List.map_map]
    rfl
  | delete =>
    unfold fallbackRowsOfOpcode
    simp only [htag]
    rw [List.filterMap_map]
    have hc : (rowOldNo ∘ fun oldIdx =>
        Row.del (os + oldIdx + 1) (oc.getD oldIdx []))
        = fun oldIdx => some (os + oldIdx + 1) := rfl
    rw [hc, filterMap_some_fun]
  | insert =>
    unfold fallbackRowsOfOpcode
    simp only [htag]
    rw [List.filterMap_map]
    have hc : (rowOldNo ∘ fun newIdx =>
        Row.ins (ns + newIdx + 1) (nc.getD newIdx []))
        = fun _ => (none : Option Nat) := rfl
    rw [hc, filterMap_none_fun, hins htag]
    simp
  | replace =>
    unfold fallbackRowsOfOpcode
    simp only [htag]
    rw [List.filterMap_append, List.filterMap_append]
    rw [List.filterMap_map, List.filterMap_map, List.filterMap_map]
    have hc1 : (rowOldNo ∘ fun idx =>
        Row.repl (os + (op.i1 + idx) + 1) (oc.getD (op.i1 + idx) [])
          (ns + (op.j1 + idx) + 1) (nc.getD (op.j1 + idx) []))
        = fun idx => some (os + (op.i1 + idx) + 1) := rfl
    have hc2 : (rowOldNo ∘ fun oldIdx =>
        Row.del (os + oldIdx + 1) (oc.getD oldIdx []))
        = fun oldIdx => some (os + oldIdx + 1) := rfl
    have hc3 : (rowOldNo ∘ fun newIdx =>
        Row.ins (ns + newIdx + 1) (nc.getD newIdx []))
        = fun _ => (none : Option Nat) := rfl
    rw [hc1, hc2, hc3, filterMap_some_fun, filterMap_some_fun, filterMap_none_fun,
      List.append_nil]
    rw [show ((List.range (min (op.i2 - op.i1) (op.j2 - op.j1))).map
          (fun idx => os + (op.i1 + idx) + 1))
        = (List.range' op.i1 (min (op.i2 - op.i1) (op.j2 - op.j1))).map
          (fun idx => os + idx + 1) from by
      rw [List.range'_eq_map_range, List.map_map]; rfl]
    rw [← List.map_append, range'_add_append,
      show min (op.i2 - op.i1) (op.j2 - op.j1) +
          (op.i2 - (op.i1 + min (op.i2 - op.i1) (op.j2 - op.j1))) = op.i2 - op.i1 from by
        omega]

theorem fallback_newNo (oc nc : List (List Char)) (os ns : Nat) (op : Opcode)
    (h : op.j1 ≤ op.j2) (hdel : op.tag = OpTag.delete → op.j2 = op.j1)
    (heq : op.tag = OpTag.equal → op.i2 - op.i1 = op.j2 - op.j1) :
    (fallbackRowsOfOpcode oc nc os ns op).filterMap rowNewNo
      = (List.range' op.j1 (op.j2 - op.j1)).map (fun idx => ns + idx + 1) := by
  cases htag : op.tag with
  | equal =>
    unfold fallbackRowsOfOpcode
    simp only [htag]
    rw [List.filterMap_map]
    have hc : (rowNewNo ∘ fun idx =>
        Row.equal (os + (op.i1 + idx) + 1) (oc.getD (op.i1 + idx) [])
          (ns + (op.j1 + idx) + 1) (nc.getD (op.j1 + idx) []))
        = fun idx => some (ns + (op.j1 + idx) + 1) := rfl
    rw [hc, filterMap_some_fun, heq htag]
    rw [List.range'_eq_map_range, List.map_map]
    rfl
  | delete =>
    unfold fallbackRowsOfOpcode
    simp only [htag]
    rw [List.filterMap_map]
    have hc : (rowNewNo ∘ fun oldIdx =>
        Row.del (os + oldIdx + 1) (oc.getD oldIdx []))
        = fun _ => (none : Option Nat) := rfl
    rw [hc, filterMap_none_fun, hdel htag]
    simp
  | insert =>
    unfold fallbackRowsOfOpcode
    simp only [htag]
    rw [List.filterMap_map]
    have hc : (rowNewNo ∘ fun newIdx =>
        Row.ins (ns + newIdx + 1) (nc.getD newIdx []))
        = fun newIdx => some (ns + newIdx + 1) := rfl
    rw [hc, filterMap_some_fun]
  | replace =>
    unfold fallbackRowsOfOpcode
    simp only [htag]
    rw [List.filterMap_append, List.filterMap_append]
    rw [List.filterMap_map, List.filterMap_map, List.filterMap_map]
    have hc1 : (rowNewNo ∘ fun idx =>
        Row.repl (os + (op.i1 + idx) + 1) (oc.getD (op.i1 + idx) [])
          (ns + (op.j1 + idx) + 1) (nc.getD (op.j1 + idx) []))
        = fun idx => some (ns + (op.j1 + idx) + 1) := rfl
    have hc2 : (rowNewNo ∘ fun oldIdx =>
        Row.del (os + oldIdx + 1) (oc.getD oldIdx []))
        = fun _ => (none : Option Nat) := rfl
    have hc3 : (rowNewNo ∘ fun newIdx =>
        Row.ins (ns + newIdx + 1) (nc.getD newIdx []))
        = fun newIdx => some (ns + newIdx + 1) := rfl
    rw [hc1, hc2, hc3, filterMap_some_fun, filterMap_some_fun, filterMap_none_fun,
      List.append_nil]
    rw [show ((List.range (min (op.i2 - op.i1) (op.j2 - op.j1))).map
          (fun idx => ns + (op.j1 + idx) + 1))
        = (List.range' op.j1 (min (op.i2 - op.i1) (op.j2 - op.j1))).map
          (fun idx => ns + idx + 1) from by
      rw [List.range'_eq_map_range, List.map_map]; rfl]
    rw [← List.map_append, range'_add_append,
      show min (op.i2 - op.i1) (op.j2 - op.j1) +
          (op.j2 - (op.j1 + min (op.i2 - op.i1) (op.j2 - op.j1))) = op.j2 - op.j1 from by
        omega]

theorem gap_rows_cover (oc nc : List (List Char)) (os ns : Nat) (i ai j bj : Nat)
    (hi : i ≤ ai) (hj : j ≤ bj) :
    (((if i < ai ∧ j < bj then [Opcode.mk OpTag.replace i ai j bj]
       else if i < ai then [Opcode.mk OpTag.delete i ai j bj]
       else if j < bj then [Opcode.mk OpTag.insert i ai j bj]
       else []).map (fallbackRowsOfOpcode oc nc os ns)).flatten.filterMap rowOldNo
      = (List.range' i (ai - i)).map (fun idx => os + idx + 1)) ∧
    (((if i < ai ∧ j < bj then [Opcode.mk OpTag.replace i ai j bj]
       else if i < ai then [Opcode.mk OpTag.delete i ai j bj]
       else if j < bj then [Opcode.mk OpTag.insert i ai j bj]
       else []).map (fallbackRowsOfOpcode oc nc os ns)).flatten.filterMap rowNewNo
      = (List.range' j (bj - j)).map (fun idx => ns + idx + 1)) := by
  by_cases h1 : i < ai ∧ j < bj
  · rw [if_pos h1]
    simp only [List.map_cons, List.map_nil, List.flatten_cons, List.flatten_nil,
      List.append_nil]
    constructor
    · have hres := fallback_oldNo oc nc os ns (Opcode.mk OpTag.replace i ai j bj)
        (by dsimp only; omega) (by intro ht; simp at ht)
      dsimp only at hres
      rw [hres]
    · have hres := fallback_newNo oc nc os ns (Opcode.mk OpTag.replace i ai j bj)
        (by dsimp only; omega) (by intro ht; simp at ht) (by intro ht; simp at ht)
      dsimp only at hres
      rw [hres]
  · rw [if_neg h1]
    by_cases h2 : i < ai
    · rw [if_pos h2]
      have hjbj : j = bj := by omega
      simp only [List.map_cons, List.map_nil, List.flatten_cons, List.flatten_nil,
        List.append_nil]
      constructor
      · have hres := fallback_oldNo oc nc os ns (Opcode.mk OpTag.delete i ai j bj)
          (by dsimp only; omega) (by intro ht; simp at ht)
        dsimp only at hres
        rw [hres]
      · have hres := fallback_newNo oc nc os ns (Opcode.mk OpTag.delete i ai j bj)
          (by dsimp only; omega) (by intro ht; dsimp only; omega)
          (by intro ht; simp at ht)
        dsimp only at hres
        rw [hres]
    · rw [if_neg h2]
      by_cases h3 : j < bj
      · rw [if_pos h3]
        have hiai : i = ai := by omega
        simp only [List.map_cons, List.map_nil, List.flatten_cons, List.flatten_nil,
          List.append_nil]
        constructor
        · have hres := fallback_oldNo oc nc os ns (Opcode.mk OpTag.insert i ai j bj)
            (by dsimp only; omega) (by intro ht; dsimp only; omega)
          dsimp only at hres
          rw [hres]
        · have hres := fallback_newNo oc nc os ns (Opcode.mk OpTag.insert i ai j bj)
            (by dsimp only; omega) (by intro ht; simp at ht)
            (by intro ht; simp at ht)
          dsimp only at hres
          rw [hres]
      · rw [if_neg h3]
        simp only [List.map_nil, List.flatten_nil, List.filterMap_nil]
        constructor
        · rw [show ai - i = 0 from by omega]
          simp
        · rw [show bj - j = 0 from by omega]
          simp

theorem fallback_cover (oc nc : List (List Char)) (os ns : Nat) :
    ∀ (blocks : List (Nat × Nat × Nat)) (i j la lb : Nat),
      chainedBlocks i j la lb blocks →
      ((((opcodesFromBlocks i j blocks).map
          (fallbackRowsOfOpcode oc nc os ns)).flatten.filterMap rowOldNo
        = (List.range' i (la - i)).map (fun idx => os + idx + 1)) ∧
       (((opcodesFromBlocks i j blocks).map
          (fallbackRowsOfOpcode oc nc os ns)).flatten.filterMap rowNewNo
        = (List.range' j (lb - j)).map (fun idx => ns + idx + 1))) := by
  intro blocks
  induction blocks with
  | nil =>
    intro i j la lb h
    simp only [chainedBlocks] at h
    rw [h.1, h.2]
    simp [opcodesFromBlocks]
  | cons hd tl ih =>
    obtain ⟨ai, bj, k⟩ := hd
    intro i j la lb h
    simp only [chainedBlocks] at h
    obtain ⟨hi, hj, hrest⟩ := h
    have hbnd := chainedBlocks_le tl (ai + k) (bj + k) la lb hrest
    have ihres := ih (ai + k) (bj + k) la lb hrest
    have hgap := gap_rows_cover oc nc os ns i ai j bj hi hj
    simp only [opcodesFromBlocks]
    simp only [List.map_append, List.flatten_append, List.filterMap_append]
    have heqOld : ((if k ≠ 0 then [Opcode.mk OpTag.equal ai (ai + k) bj (bj + k)]
        else []).map (fallbackRowsOfOpcode oc nc os ns)).flatten.filterMap rowOldNo
        = (List.range' ai k).map (fun idx => os + idx + 1) := by
      by_cases hk : k = 0
      · rw [hk]
        simp
      · rw [if_pos hk]
        simp only [List.map_cons, List.map_nil, List.flatten_cons, List.flatten_nil,
          List.append_nil]
        have hres := fallback_oldNo oc nc os ns
          (Opcode.mk OpTag.equal ai (ai + k) bj (bj + k))
          (by dsimp only; omega) (by intro ht; simp at ht)
        dsimp only at hres
        rw [hres, Nat.add_sub_cancel_left]
    have heqNew : ((if k ≠ 0 then [Opcode.mk OpTag.equal ai (ai + k) bj (bj + k)]
        else []).map (fallbackRowsOfOpcode oc nc os ns)).flatten.filterMap rowNewNo
        = (List.range' bj k).map (fun idx => ns + idx + 1) := by
      by_cases hk : k = 0
      · rw [hk]
        simp
      · rw [if_pos hk]
        simp only [List.map_cons, List.map_nil, List.flatten_cons, List.flatten_nil,
          List.append_nil]
        have hres := fallback_newNo oc nc os ns
          (Opcode.mk OpTag.equal ai (ai + k) bj (bj + k))
          (by dsimp only; omega) (by intro ht; simp at ht)
          (by intro ht; dsimp only; omega)
        dsimp only at hres
        rw [hres, Nat.add_sub_cancel_left]
    constructor
    · rw [hgap.1, heqOld, ihres.1]
      rw [← List.map_append, ← List.map_append]
      rw [show List.range' ai k = List.range' (i + (ai - i)) k from by
        rw [show i + (ai - i) = ai from by omega]]
      rw [range'_add_append]
      rw [show List.range' (ai + k) (la - (ai + k))
          = List.range' (i + (ai - i + k)) (la - (ai + k)) from by
        rw [show i + (ai - i + k) = ai + k from by omega]]
      rw [range'_add_append]
      rw [show ai - i + k + (la - (ai + k)) = la - i from by omega]
    · rw [hgap.2, heqNew, ihres.2]
      rw [← List.map_append, ← List.map_append]
      rw [show List.range' bj k = List.range' (j + (bj - j)) k from by
        rw [show j + (bj - j) = bj from by omega]]
      rw [range'_add_append]
      rw [show List.range' (bj + k) (lb - (bj + k))
          = List.range' (j + (bj - j + k)) (lb - (bj + k)) from by
        rw [show j + (bj - j + k) = bj + k from by omega]]
      rw [range'_add_append]
      rw [show bj - j + k + (lb - (bj + k)) = lb - j from by omega]

theorem rowOldNo_rowOfOp (oc nc : List (List Char)) (os ns : Nat) (op : RowOp) :
    rowOldNo (rowOfOp oc nc os ns op) = (opOldIdx op).map (fun k => os + k + 1) := by
  cases op <;> rfl

theorem rowNewNo_rowOfOp (oc nc : List (List Char)) (os ns : Nat) (op : RowOp) :
    rowNewNo (rowOfOp oc nc os ns op) = (opNewIdx op).map (fun k => ns + k + 1) := by
  cases op <;> rfl

/-! ### The diagonal argument: matching a sequence against itself -/

theorem getD_of_getQ {α : Type} [Inhabited α] :
    ∀ (l : List α) (j : Nat) (x : α), l.get? j = some x → l.getD j default = x := by
  intro l
  induction l with
  | nil => intro j x h; simp at h
  | cons a t ih =>
    intro j x h
    match j with
    | 0 =>
      simp only [List.get?_cons_zero, Option.some_inj] at h
      simpa using h
    | j + 1 =>
      simp only [List.get?_cons_succ] at h
      simpa using ih j x h

theorem getQ_of_lt {α : Type} [Inhabited α] :
    ∀ (l : List α) (j : Nat), j < l.length → l.get? j = some (l.getD j default) := by
  intro l
  induction l with
  | nil => intro j h; simp at h
  | cons a t ih =>
    intro j h
    match j with
    | 0 => simp
    | j + 1 =>
      simp only [List.get?_cons_succ, List.getD_cons_succ]
      exact ih j (by simpa using h)

theorem b2j_sound {α : Type} [DecidableEq α] (autojunk : Bool) (b : List α)
    (x : α) (j : Nat) (h : j ∈ b2j autojunk b x) :
    j < b.length ∧ b.get? j = some x := by
  simp only [b2j] at h
  split at h
  · simp at h
  · unfold positions at h
    rw [List.mem_filter] at h
    refine ⟨by simpa using h.1, ?_⟩
    have := h.2
    simpa using this

theorem b2j_complete {α : Type} [DecidableEq α] (autojunk : Bool) (b : List α)
    (x : α) (j i : Nat) (hj : j ∈ b2j autojunk b x) (hi : i < b.length)
    (hx : b.get? i = some x) :
    i ∈ b2j autojunk b x := by
  simp only [b2j] at hj ⊢
  split at hj
  · simp at hj
  · rename_i hcond
    rw [if_neg hcond]
    unfold positions
    rw [List.mem_filter]
    exact ⟨by simpa using hi, by rw [hx]; simp⟩

theorem b2j_pairwise {α : Type} [DecidableEq α] (autojunk : Bool) (b : List α)
    (x : α) : List.Pairwise (fun u v => u < v) (b2j autojunk b x) := by
  simp only [b2j]
  split
  · simp
  · unfold positions
    exact (List.pairwise_lt_range b.length).sublist (List.filter_sublist _)

theorem diagR_eq {α : Type} [DecidableEq α] [Inhabited α] (a : List α)
    (bj : α → List Nat) :
    ∀ (i j : Nat), diagR a bj i j
      = if j ∈ bj (a.getD i default)
        then (if i = 0 ∨ j = 0 then 1 else diagR a bj (i - 1) (j - 1) + 1)
        else 0 := by
  intro i j
  match i, j with
  | 0, j =>
    simp only [diagR]
    split
    · simp
    · rfl
  | i + 1, 0 =>
    simp only [diagR]
    split
    · simp
    · rfl
  | i + 1, j + 1 =>
    simp only [diagR]
    split
    · rw [if_neg (by omega)]
      simp
    · rfl

theorem diagR_le_left {α : Type} [DecidableEq α] [Inhabited α] (a : List α)
    (bj : α → List Nat)
    (hbj1 : ∀ x j, j ∈ bj x → j < a.length ∧ a.getD j default = x) :
    ∀ (j i : Nat), j ≤ i → diagR a bj i j ≤ diagR a bj j j := by
  intro j
  induction j with
  | zero =>
    intro i _
    match i with
    | 0 => exact le_refl _
    | i + 1 =>
      simp only [diagR]
      split
      · rename_i hmem
        rw [(hbj1 _ 0 hmem).2, if_pos hmem]
      · simp
  | succ j ih =>
    intro i hji
    match i with
    | 0 => omega
    | i + 1 =>
      simp only [diagR]
      split
      · rename_i hmem
        rw [(hbj1 _ (j + 1) hmem).2, if_pos hmem]
        have := ih i (by omega)
        omega
      · simp

theorem diagR_le_right {α : Type} [DecidableEq α] [Inhabited α] (a : List α)
    (bj : α → List Nat)
    (hbj1 : ∀ x j, j ∈ bj x → j < a.length ∧ a.getD j default = x)
    (hbj2 : ∀ x j m, j ∈ bj x → m < a.length → a.getD m default = x → m ∈ bj x) :
    ∀ (i j : Nat), i ≤ j → diagR a bj i j ≤ diagR a bj i i := by
  intro i
  induction i with
  | zero =>
    intro j _
    simp only [diagR]
    split
    · rename_i hmem
      have hlen : 0 < a.length := by
        have := (hbj1 _ j hmem).1
        omega
      rw [if_pos (hbj2 _ j 0 hmem hlen rfl)]
    · simp
  | succ i ih =>
    intro j hij
    match j with
    | 0 => omega
    | j + 1 =>
      simp only [diagR]
      split
      · rename_i hmem
        have hlen : i + 1 < a.length := by
          have := (hbj1 _ (j + 1) hmem).1
          omega
        rw [if_pos (hbj2 _ (j + 1) (i + 1) hmem hlen rfl)]
        have := ih j (by omega)
        omega
      · simp

theorem flm_k_eq {α : Type} [DecidableEq α] [Inhabited α] (a : List α)
    (bj : α → List Nat) (i : Nat) (prev : Nat → Nat)
    (hprev : ∀ j, prev j = if i = 0 then 0 else diagR a bj (i - 1) j)
    (j : Nat) (hmem : j ∈ bj (a.getD i default)) :
    (if j = 0 then 0 else prev (j - 1)) + 1 = diagR a bj i j := by
  rw [diagR_eq, if_pos hmem]
  by_cases hj : j = 0
  · rw [if_pos hj, if_pos (Or.inr hj)]
  · rw [if_neg hj, hprev (j - 1)]
    by_cases hi : i = 0
    · rw [if_pos hi, if_pos (Or.inl hi)]
    · rw [if_neg hi, if_neg (by omega)]

theorem flmRow_diag_aux {α : Type} [DecidableEq α] [Inhabited α] (a : List α)
    (bj : α → List Nat) (i : Nat)
    (hbj1 : ∀ x j, j ∈ bj x → j < a.length ∧ a.getD j default = x)
    (hbj2 : ∀ x j m, j ∈ bj x → m < a.length → a.getD m default = x → m ∈ bj x)
    (prev : Nat → Nat)
    (hprev : ∀ j, prev j = if i = 0 then 0 else diagR a bj (i - 1) j) :
    ∀ (l : List Nat) (tbl : Nat → Nat) (best : Nat × Nat × Nat),
      (∀ j, j ∈ l → j ∈ bj (a.getD i default)) →
      List.Pairwise (fun u v => u < v) l →
      (∀ j, j ∈ bj (a.getD i default) → j ∉ l → tbl j = diagR a bj i j) →
      (∀ j, j ∉ bj (a.getD i default) → tbl j = 0) →
      best.1 = best.2.1 →
      (∀ m, m < i → diagR a bj m m ≤ best.2.2) →
      (diagR a bj i i ≤ best.2.2 ∨ i ∈ l) →
      (fun st : (Nat → Nat) × (Nat × Nat × Nat) =>
        (∀ j2, st.1 j2 = diagR a bj i j2) ∧ st.2.1 = st.2.2.1 ∧
        (∀ m, m < i + 1 → diagR a bj m m ≤ st.2.2.2))
        (l.foldl (fun st j =>
          let k := (if j = 0 then 0 else prev (j - 1)) + 1
          ((fun m => if m = j then k else st.1 m),
           if k > st.2.2.2 then (i + 1 - k, j + 1 - k, k) else st.2))
          (tbl, best)) := by
  intro l
  induction l with
  | nil =>
    intro tbl best hsub hpw hT1 hT2 hdiag hprevs hacct
    rw [List.foldl_nil]
    dsimp only
    refine ⟨?_, hdiag, ?_⟩
    · intro j2
      by_cases hmem : j2 ∈ bj (a.getD i default)
      · exact hT1 j2 hmem (by simp)
      · rw [hT2 j2 hmem, diagR_eq, if_neg hmem]
    · intro m hm
      by_cases hmi : m = i
      · subst hmi
        rcases hacct with h | h
        · exact h
        · simp at h
      · exact hprevs m (by omega)
  | cons j l ih =>
    intro tbl best hsub hpw hT1 hT2 hdiag hprevs hacct
    rw [List.foldl_cons]
    dsimp only
    have hmem : j ∈ bj (a.getD i default) := hsub j (by simp)
    have hk := flm_k_eq a bj i prev hprev j hmem
    set k := (if j = 0 then 0 else prev (j - 1)) + 1 with hkdef
    have hpw2 := List.pairwise_cons.mp hpw
    by_cases hrec : k > best.2.2
    · rw [if_pos hrec]
      have hji : j = i := by
        by_contra hne
        rcases Nat.lt_or_ge j i with hlt | hge
        · have h1 := diagR_le_left a bj hbj1 j i (by omega)
          have h2 := hprevs j hlt
          omega
        · have hgt : i < j := by omega
          have h1 := diagR_le_right a bj hbj1 hbj2 i j (by omega)
          have h2 : diagR a bj i i ≤ best.2.2 := by
            rcases hacct with h | h
            · exact h
            · rcases List.mem_cons.mp h with h3 | h3
              · omega
              · have h4 := hpw2.1 i h3
                omega
          omega
      subst hji
      refine ih _ _ (fun m hm => hsub m (List.mem_cons_of_mem _ hm)) hpw2.2
        ?_ ?_ rfl ?_ ?_
      · intro m hm2 hnl
        by_cases hmj : m = j
        · subst hmj
          simp only [if_pos rfl]
          exact hk
        · rw [if_neg hmj]
          exact hT1 m hm2 (by simp [hmj, hnl])
      · intro m hm2
        have hmj : m ≠ j := fun he => hm2 (he ▸ hmem)
        rw [if_neg hmj]
        exact hT2 m hm2
      · intro m hm
        have := hprevs m hm
        dsimp only
        omega
      · left
        dsimp only
        omega
    · rw [if_neg hrec]
      refine ih _ _ (fun m hm => hsub m (List.mem_cons_of_mem _ hm)) hpw2.2
        ?_ ?_ hdiag hprevs ?_
      · intro m hm2 hnl
        by_cases hmj : m = j
        · subst hmj
          simp only [if_pos rfl]
          exact hk
        · rw [if_neg hmj]
          exact hT1 m hm2 (by simp [hmj, hnl])
      · intro m hm2
        have hmj : m ≠ j := fun he => hm2 (he ▸ hmem)
        rw [if_neg hmj]
        exact hT2 m hm2
      · rcases hacct with h | h
        · left; exact h
        · rcases List.mem_cons.mp h with h3 | h3
          · left
            rw [h3] at hk ⊢
            omega
          · right; exact h3

theorem flmFoldDiagAux {α : Type} [DecidableEq α] [Inhabited α] (a : List α)
    (bj : α → List Nat)
    (hbj1 : ∀ x j, j ∈ bj x → j < a.length ∧ a.getD j default = x)
    (hbj2 : ∀ x j m, j ∈ bj x → m < a.length → a.getD m default = x → m ∈ bj x)
    (hpwbj : ∀ x, List.Pairwise (fun u v => u < v) (bj x)) :
    ∀ (len i0 : Nat) (tbl : Nat → Nat) (best : Nat × Nat × Nat),
      (∀ j, tbl j = if i0 = 0 then 0 else diagR a bj (i0 - 1) j) →
      best.1 = best.2.1 →
      (∀ m, m < i0 → diagR a bj m m ≤ best.2.2) →
      ((((List.range' i0 len).foldl
          (fun st i => flmRow 0 a.length i (bj (a.getD i default)) st.1 st.2)
          (tbl, best)).2).1
        = (((List.range' i0 len).foldl
          (fun st i => flmRow 0 a.length i (bj (a.getD i default)) st.1 st.2)
          (tbl, best)).2).2.1) := by
  intro len
  induction len with
  | zero =>
    intro i0 tbl best _ hdiag _
    simpa using hdiag
  | succ n ih =>
    intro i0 tbl best htbl hdiag hprevs
    rw [List.range'_succ, List.foldl_cons]
    have hstep : flmRow 0 a.length i0 (bj (a.getD i0 default)) (tbl, best).1 (tbl, best).2
        = ((flmRow 0 a.length i0 (bj (a.getD i0 default)) tbl best).1,
           (flmRow 0 a.length i0 (bj (a.getD i0 default)) tbl best).2) := rfl
    rw [hstep]
    have hfilter : (bj (a.getD i0 default)).filter
        (fun j => decide (0 ≤ j) && decide (j < a.length)) = bj (a.getD i0 default) := by
      apply List.filter_eq_self.mpr
      intro j hj
      have := (hbj1 _ j hj).1
      simp only [Bool.and_eq_true, decide_eq_true_eq]
      omega
    have hacct : diagR a bj i0 i0 ≤ best.2.2 ∨ i0 ∈ bj (a.getD i0 default) := by
      by_cases hmem : i0 ∈ bj (a.getD i0 default)
      · exact Or.inr hmem
      · left
        rw [diagR_eq, if_neg hmem]
        exact Nat.zero_le _
    have hrow := flmRow_diag_aux a bj i0 hbj1 hbj2 tbl htbl
      (bj (a.getD i0 default)) (fun _ => 0) best
      (fun m hm => hm) (hpwbj _)
      (fun j hj hnj => absurd hj hnj) (fun j hj => rfl)
      hdiag hprevs hacct
    have hfr : flmRow 0 a.length i0 (bj (a.getD i0 default)) tbl best
        = (bj (a.getD i0 default)).foldl
          (fun (st : (Nat → Nat) × (Nat × Nat × Nat)) j =>
            let k := (if j = 0 then 0 else tbl (j - 1)) + 1
            ((fun m => if m = j then k else st.1 m),
             if k > st.2.2.2 then (i0 + 1 - k, j + 1 - k, k) else st.2))
          ((fun _ => 0), best) := by
      unfold flmRow
      rw [hfilter]
    exact ih (i0 + 1) _ _
      (fun j => by
        rw [if_neg (by omega), Nat.add_sub_cancel, hfr]
        exact hrow.1 j)
      (by rw [hfr]; exact hrow.2.1)
      (fun m hm => by rw [hfr]; exact hrow.2.2 m hm)

theorem flmFold_diag {α : Type} [DecidableEq α] [Inhabited α] (autojunk : Bool)
    (a : List α) :
    (flmFold a (b2j autojunk a) 0 a.length 0 a.length).1
      = (flmFold a (b2j autojunk a) 0 a.length 0 a.length).2.1 := by
  unfold flmFold
  exact flmFoldDiagAux a (b2j autojunk a)
    (fun x j hj => ⟨(b2j_sound autojunk a x j hj).1,
      getD_of_getQ a j x (b2j_sound autojunk a x j hj).2⟩)
    (fun x j m hj hm hx => b2j_complete autojunk a x j m hj hm
      (by rw [getQ_of_lt a m hm, hx]))
    (fun x => b2j_pairwise autojunk a x)
    (a.length - 0) 0 (fun _ => 0) (0, 0, 0)
    (fun j => by simp) rfl (fun m hm => by omega)

theorem extendBack_self {α : Type} [DecidableEq α] (a : List α) :
    ∀ (d k : Nat), d ≤ a.length →
      extendBack a a 0 0 d d k = (0, 0, k + d) := by
  intro d
  induction d with
  | zero => intro k _; simp [extendBack]
  | succ d ih =>
    intro k hd
    have hidx : idxEq a d a d = true := by
      unfold idxEq
      rw [List.get?_eq_get (show d < a.length from by omega)]
      simp
    simp only [extendBack, Nat.add_sub_cancel]
    rw [if_pos (by
      simp only [Bool.and_eq_true, decide_eq_true_eq]
      exact ⟨⟨by omega, by omega⟩, hidx⟩)]
    rw [ih (k + 1) (by omega)]
    rw [show k + 1 + d = k + (d + 1) from by omega]

theorem extendFwdF_self {α : Type} [DecidableEq α] (a : List α) :
    ∀ (fuel k : Nat), k ≤ a.length → a.length - k ≤ fuel →
      extendFwdF a a a.length a.length 0 0 fuel k = a.length := by
  intro fuel
  induction fuel with
  | zero =>
    intro k h1 h2
    simp only [extendFwdF]
    omega
  | succ n ih =>
    intro k h1 h2
    by_cases hk : k < a.length
    · have hidx : idxEq a (0 + k) a (0 + k) = true := by
        unfold idxEq
        rw [List.get?_eq_get (show 0 + k < a.length from by omega)]
        simp
      simp only [extendFwdF]
      rw [if_pos (by
        simp only [Bool.and_eq_true, decide_eq_true_eq]
        exact ⟨⟨by omega, by omega⟩, hidx⟩)]
      exact ih (k + 1) (by omega) (by omega)
    · simp only [extendFwdF]
      rw [if_neg (by
        simp only [Bool.and_eq_true, decide_eq_true_eq]
        intro hcon
        omega)]
      omega

theorem flm_self {α : Type} [DecidableEq α] [Inhabited α] (autojunk : Bool)
    (a : List α) :
    find_longest_match a a (b2j autojunk a) 0 a.length 0 a.length
      = (0, 0, a.length) := by
  unfold find_longest_match
  dsimp only
  have hdiag := flmFold_diag autojunk a
  have hrect := flmFold_inv a (b2j autojunk a) 0 a.length 0 a.length
    (Nat.zero_le _) (Nat.zero_le _)
  unfold bestInRect at hrect
  set F := flmFold a (b2j autojunk a) 0 a.length 0 a.length with hF
  rw [← hdiag]
  rw [extendBack_self a F.1 F.2.2 (by omega)]
  dsimp only
  rw [extendFwdF_self a a.length (F.2.2 + F.1) (by omega) (by omega)]

theorem get_matching_blocks_self {α : Type} [DecidableEq α] [Inhabited α]
    (autojunk : Bool) (a : List α) (h : a ≠ []) :
    get_matching_blocks autojunk a a
      = [(0, 0, a.length), (a.length, a.length, 0)] := by
  have hn : 1 ≤ a.length := by
    cases a
    · exact absurd rfl h
    · simp
  unfold get_matching_blocks
  simp only [mbLoopF]
  rw [flm_self autojunk a]
  dsimp only
  rw [if_pos (show a.length ≠ 0 from by omega)]
  rw [if_neg (show ¬(0 + a.length < a.length ∧ 0 + a.length < a.length) from by omega)]
  rw [if_neg (show ¬((0:Nat) < 0 ∧ (0:Nat) < 0) from by omega)]
  simp only [List.nil_append]
  obtain ⟨m, hm⟩ : ∃ m, a.length + a.length = m + 1 := ⟨a.length + a.length - 1, by omega⟩
  rw [hm]
  simp only [mbLoopF]
  have hsort : List.insertionSort blockLe [((0:Nat), (0:Nat), a.length)]
      = [(0, 0, a.length)] := by
    simp [List.insertionSort, List.orderedInsert]
  rw [hsort]
  simp only [collapseAdjacent]
  have hane : a.length ≠ 0 := by omega
  simp [hane]

theorem totalMatched_self {α : Type} [DecidableEq α] [Inhabited α]
    (autojunk : Bool) (a : List α) (h : a ≠ []) :
    totalMatched autojunk a a = a.length := by
  unfold totalMatched
  rw [get_matching_blocks_self autojunk a h]
  simp

theorem ratioQ_self {α : Type} [DecidableEq α] [Inhabited α]
    (autojunk : Bool) (a : List α) :
    ratioQ autojunk a a = 1 := by
  by_cases h : a = []
  · subst h
    unfold ratioQ
    simp
  · unfold ratioQ
    have hn : 1 ≤ a.length := by
      cases a
      · exact absurd rfl h
      · simp
    rw [if_neg (by omega)]
    rw [totalMatched_self autojunk a h]
    have hne : ((a.length : ℚ) + (a.length : ℚ)) ≠ 0 := by
      have : (0:ℚ) < (a.length : ℚ) := by
        exact_mod_cast hn
      positivity
    field_simp
    ring

theorem line_similarity_score_self (l : List Char) : line_similarity_score l l = 1 := by
  unfold line_similarity_score
  dsimp only
  rw [ratioQ_self]
  by_cases h : (!(findWords l).isEmpty && !(findWords l).isEmpty) = true
  · rw [if_pos h, ratioQ_self]
    norm_num
  · rw [if_neg h]
    norm_num

/-- C4 (amended): the similarity scorer is not symmetric in general, but scoring
    any line against itself — empty lines included — yields exactly 1. -/
theorem c4_score_self_one (l : List Char) : line_similarity_score l l = 1 :=
  line_similarity_score_self l

/-! ### C5: highlighting a line against itself -/

theorem opcodes_single_equal (n : Nat) (h : n ≠ 0) :
    opcodesFromBlocks 0 0 [(0, 0, n), (n, n, 0)] = [Opcode.mk OpTag.equal 0 n 0 n] := by
  simp [opcodesFromBlocks, h]

theorem collectRegions_all_equal (o n : List Char) :
    ∀ (ops : List Opcode), (∀ op ∈ ops, op.tag = OpTag.equal) →
      collectRegions o n ops = ([], []) := by
  intro ops
  induction ops with
  | nil => intro _; rfl
  | cons op rest ih =>
    intro hall
    unfold collectRegions
    rw [List.foldl_cons]
    have hstep : collectRegionsStep o n ([], []) op = ([], []) := by
      unfold collectRegionsStep
      rw [hall op (by simp)]
    rw [hstep]
    exact ih (fun op2 h2 => hall op2 (by simp [h2]))

theorem get_opcodes_self_equal (a : List Char) :
    ∀ op ∈ get_opcodes true a a, op.tag = OpTag.equal := by
  by_cases h : a = []
  · subst h
    intro op hop
    have he : get_opcodes true ([] : List Char) ([] : List Char) = [] := rfl
    rw [he] at hop
    simp at hop
  · intro op hop
    unfold get_opcodes at hop
    rw [get_matching_blocks_self true a h] at hop
    rw [opcodes_single_equal a.length (by
      cases a
      · exact absurd rfl h
      · simp)] at hop
    have : op = Opcode.mk OpTag.equal 0 a.length 0 a.length := by simpa using hop
    rw [this]

/-- C5: highlighting a line against itself produces no change regions on either
    side, and both returned strings are the unmodified input line. -/
theorem c5_self_no_regions (a : List Char) :
    gbdMergedOld a a = [] ∧ gbdMergedNew a a = [] ∧
    get_block_level_diff a a = (a, a) := by
  have hcr : collectRegions a a (get_opcodes true a a) = ([], []) :=
    collectRegions_all_equal a a _ (get_opcodes_self_equal a)
  have hmo : gbdMergedOld a a = [] := by
    unfold gbdMergedOld gbdExpandedOld
    rw [hcr]
    rfl
  have hmn : gbdMergedNew a a = [] := by
    unfold gbdMergedNew gbdExpandedNew
    rw [hcr]
    rfl
  refine ⟨hmo, hmn, ?_⟩
  unfold get_block_level_diff
  rw [hmo, hmn]
  rfl

/-! ### C6: word-boundary expansion endpoints -/

theorem expandBackwardF_boundary (text : List Char) :
    ∀ (fuel s : Nat), s ≤ fuel →
      expandBackwardF text fuel s = 0 ∨
      is_word_char (text.getD (expandBackwardF text fuel s - 1) ' ') = false := by
  intro fuel
  induction fuel with
  | zero =>
    intro s h
    left
    simp only [expandBackwardF]
    omega
  | succ n ih =>
    intro s h
    simp only [expandBackwardF]
    split
    · exact ih (s - 1) (by omega)
    · rename_i hcond
      simp only [Bool.and_eq_true, decide_eq_true_eq, not_and,
        Bool.not_eq_true] at hcond
      by_cases hs : s = 0
      · left; exact hs
      · right; exact hcond (by omega)

theorem scanOverWordF_boundary (text : List Char) :
    ∀ (fuel p : Nat), text.length - p ≤ fuel →
      text.length ≤ scanOverWordF text fuel p ∨
      is_word_char (text.getD (scanOverWordF text fuel p) ' ') = false := by
  intro fuel
  induction fuel with
  | zero =>
    intro p h
    left
    simp only [scanOverWordF]
    omega
  | succ n ih =>
    intro p h
    simp only [scanOverWordF]
    split
    · rename_i hcond
      simp only [Bool.and_eq_true, decide_eq_true_eq] at hcond
      exact ih (p + 1) (by omega)
    · rename_i hcond
      simp only [Bool.and_eq_true, decide_eq_true_eq, not_and,
        Bool.not_eq_true] at hcond
      by_cases hp : p < text.length
      · right; exact hcond hp
      · left; omega

theorem scanToWordF_word (text : List Char) :
    ∀ (fuel p : Nat), text.length - p ≤ fuel →
      text.length ≤ scanToWordF text fuel p ∨
      is_word_char (text.getD (scanToWordF text fuel p) ' ') = true := by
  intro fuel
  induction fuel with
  | zero =>
    intro p h
    left
    simp only [scanToWordF]
    omega
  | succ n ih =>
    intro p h
    simp only [scanToWordF]
    split
    · rename_i hcond
      simp only [Bool.and_eq_true, decide_eq_true_eq, Bool.not_eq_true] at hcond
      exact ih (p + 1) (by omega)
    · rename_i hcond
      simp only [Bool.and_eq_true, decide_eq_true_eq, Bool.not_eq_true,
        not_and] at hcond
      by_cases hp : p < text.length
      · right
        have h3 := hcond hp
        simpa using h3
      · left; omega

theorem expandCore_boundaries (text : List Char) (s e : Nat) (rr : Nat × Nat)
    (h : expandCore text s e = some rr) :
    (text.length ≤ rr.2 ∨ is_word_char (text.getD rr.2 ' ') = false) ∧
    ((rr.1 = 0 ∨ is_word_char (text.getD (rr.1 - 1) ' ') = false) ∨
     (rr.1 < text.length ∧ is_word_char (text.getD rr.1 ' ') = true ∧
      rr.2 = scanOverWordF text text.length rr.1)) := by
  unfold expandCore at h
  split at h
  · split at h
    · exact absurd h (by simp)
    · rename_i hanchor hfs
      rw [Option.some_inj] at h
      subst h
      dsimp only
      constructor
      · exact scanOverWordF_boundary text text.length _ (by omega)
      · right
        refine ⟨by omega, ?_, rfl⟩
        rcases scanToWordF_word text text.length s (by omega) with h2 | h2
        · omega
        · exact h2
  · rename_i hanchor
    rw [Option.some_inj] at h
    subst h
    dsimp only
    constructor
    · exact scanOverWordF_boundary text text.length _ (by omega)
    · left
      exact expandBackwardF_boundary text _ _ (le_refl _)

theorem expandOne_boundaries (text : List Char) (r rr : Nat × Nat)
    (h : expandOne text r = some rr) :
    (text.length ≤ rr.2 ∨ is_word_char (text.getD rr.2 ' ') = false) ∧
    ((rr.1 = 0 ∨ is_word_char (text.getD (rr.1 - 1) ' ') = false) ∨
     (rr.1 < text.length ∧ is_word_char (text.getD rr.1 ' ') = true ∧
      rr.2 = scanOverWordF text text.length rr.1)) := by
  unfold expandOne at h
  dsimp only at h
  exact expandCore_boundaries text _ _ rr h

/-- C6 (amended): every region emitted by word-boundary expansion ends at a word
    boundary — the character at the end index, when it exists, is not a word
    character — and starts at a word boundary as well, except in the
    zero-length-anchor case, where the emitted region is exactly the next full
    word run and may begin strictly inside a word run. -/
theorem c6_expansion_boundaries (text : List Char) (regions : List (Nat × Nat)) :
    ∀ r ∈ expand_to_word_boundaries text regions,
      (text.length ≤ r.2 ∨ is_word_char (text.getD r.2 ' ') = false) ∧
      ((r.1 = 0 ∨ is_word_char (text.getD (r.1 - 1) ' ') = false) ∨
       (r.1 < text.length ∧ is_word_char (text.getD r.1 ' ') = true ∧
        r.2 = scanOverWordF text text.length r.1)) := by
  intro r hr
  unfold expand_to_word_boundaries at hr
  rw [List.mem_filterMap] at hr
  obtain ⟨r0, _, h⟩ := hr
  exact expandOne_boundaries text r0 r h

theorem c6_expansion_boundaries_witness :
    ((['a'] : List Char).length ≤ (((0, 1) : Nat × Nat)).2 ∨
      is_word_char ((['a'] : List Char).getD (((0, 1) : Nat × Nat)).2 ' ') = false) ∧
    (((((0, 1) : Nat × Nat)).1 = 0 ∨
      is_word_char ((['a'] : List Char).getD ((((0, 1) : Nat × Nat)).1 - 1) ' ') = false) ∨
     ((((0, 1) : Nat × Nat)).1 < (['a'] : List Char).length ∧
      is_word_char ((['a'] : List Char).getD (((0, 1) : Nat × Nat)).1 ' ') = true ∧
      (((0, 1) : Nat × Nat)).2
        = scanOverWordF ['a'] (['a'] : List Char).length (((0, 1) : Nat × Nat)).1)) :=
  c6_expansion_boundaries ['a'] [(0, 1)] (0, 1) (by decide)

/-! ### C9: stripping the highlight markers restores the line -/

theorem pySlice_glue (l : List Char) (a b c : Nat) (h1 : a ≤ b) (h2 : b ≤ c) :
    pySlice l a b ++ pySlice l b c = pySlice l a c := by
  unfold pySlice
  rw [List.drop_take, List.drop_take, List.drop_take]
  rw [show l.drop b = (l.drop a).drop (b - a) from by
    rw [List.drop_drop]
    congr 1
    omega]
  rw [show c - a = (b - a) + (c - b) from by omega, List.take_add]

theorem pySlice_glue_top (l : List Char) (a b : Nat) (h1 : a ≤ b) :
    pySlice l a b ++ pySlice l b l.length = pySlice l a l.length := by
  by_cases hb : b ≤ l.length
  · exact pySlice_glue l a b l.length h1 hb
  · have h2 : pySlice l b l.length = [] := by
      unfold pySlice
      rw [List.take_length]
      exact List.drop_eq_nil_of_le (by omega)
    rw [h2, List.append_nil]
    unfold pySlice
    rw [List.take_length, List.take_of_length_le (by omega)]

theorem pySlice_no_esc (text : List Char) (a b : Nat) (h : escChar ∉ text) :
    escChar ∉ pySlice text a b :=
  fun hc => h (List.mem_of_mem_take (List.mem_of_mem_drop hc))

/-- Stripping absorbs one complete escape sequence at the head. -/
theorem stripAnsi_full_marker {m : List Char} (h : ansiSuffix m = some [])
    (z : List Char) : stripAnsi (m ++ z) = stripAnsi z := by
  have h2 := stripAnsi_matched_append h z
  rw [show m.take (m.length - ([] : List Char).length) = m from by simp] at h2
  exact h2

theorem stripAnsi_RESET_append (z : List Char) :
    stripAnsi (RESET ++ z) = stripAnsi z :=
  stripAnsi_full_marker (by decide) z

theorem stripAnsi_RED_SPACE_BG (z : List Char) :
    stripAnsi (RED_SPACE_BG ++ z) = stripAnsi z :=
  stripAnsi_full_marker (by decide) z

theorem stripAnsi_GREEN_SPACE_BG (z : List Char) :
    stripAnsi (GREEN_SPACE_BG ++ z) = stripAnsi z :=
  stripAnsi_full_marker (by decide) z

theorem stripAnsi_DEL_BG (z : List Char) :
    stripAnsi (DEL_BG ++ z) = stripAnsi z := by
  have he : DEL_BG = [escChar, '[', '4', '8', ';', '5', ';', '7', '4', 'm']
      ++ [escChar, '[', '3', '7', 'm'] := rfl
  rw [he, List.append_assoc, stripAnsi_full_marker (by decide),
    stripAnsi_full_marker (by decide)]

theorem stripAnsi_ADD_BG (z : List Char) :
    stripAnsi (ADD_BG ++ z) = stripAnsi z := by
  have he : ADD_BG = [escChar, '[', '4', '8', ';', '5', ';', '3', '6', 'm']
      ++ [escChar, '[', '3', '7', 'm'] := rfl
  rw [he, List.append_assoc, stripAnsi_full_marker (by decide),
    stripAnsi_full_marker (by decide)]

theorem stripAnsi_LINE_DEL_BG (z : List Char) :
    stripAnsi (LINE_DEL_BG ++ z) = stripAnsi z := by
  have he : LINE_DEL_BG = [escChar, '[', '4', '8', ';', '5', ';', '6', '7', 'm']
      ++ [escChar, '[', '3', '7', 'm'] := rfl
  rw [he, List.append_assoc, stripAnsi_full_marker (by decide),
    stripAnsi_full_marker (by decide)]

theorem stripAnsi_LINE_ADD_BG (z : List Char) :
    stripAnsi (LINE_ADD_BG ++ z) = stripAnsi z := by
  have he : LINE_ADD_BG = [escChar, '[', '4', '8', ';', '5', ';', '6', '5', 'm']
      ++ [escChar, '[', '3', '7', 'm'] := rfl
  rw [he, List.append_assoc, stripAnsi_full_marker (by decide),
    stripAnsi_full_marker (by decide)]

theorem scanOverWordF_ge (text : List Char) :
    ∀ (fuel p : Nat), p ≤ scanOverWordF text fuel p := by
  intro fuel
  induction fuel with
  | zero => intro p; simp [scanOverWordF]
  | succ n ih =>
    intro p
    simp only [scanOverWordF]
    split
    · have := ih (p + 1)
      omega
    · exact le_refl _

theorem expandBackwardF_le (text : List Char) :
    ∀ (fuel s : Nat), expandBackwardF text fuel s ≤ s := by
  intro fuel
  induction fuel with
  | zero => intro s; simp [expandBackwardF]
  | succ n ih =>
    intro s
    simp only [expandBackwardF]
    split
    · have := ih (s - 1)
      omega
    · exact le_refl _

theorem advanceStartSpacesF_ge (text : List Char) :
    ∀ (fuel s e : Nat), s ≤ advanceStartSpacesF text fuel s e := by
  intro fuel
  induction fuel with
  | zero => intro s e; simp [advanceStartSpacesF]
  | succ n ih =>
    intro s e
    simp only [advanceStartSpacesF]
    split
    · have := ih (s + 1) e
      omega
    · exact le_refl _

theorem advanceStartSpacesF_le (text : List Char) :
    ∀ (fuel s e : Nat), s ≤ e → advanceStartSpacesF text fuel s e ≤ e := by
  intro fuel
  induction fuel with
  | zero => intro s e h; simpa [advanceStartSpacesF] using h
  | succ n ih =>
    intro s e h
    simp only [advanceStartSpacesF]
    split
    · rename_i hcond
      simp only [Bool.and_eq_true, decide_eq_true_eq] at hcond
      exact ih (s + 1) e (by omega)
    · exact h

theorem retreatEndSpacesF_ge (text : List Char) (start : Nat) :
    ∀ (fuel e : Nat), start ≤ e → start ≤ retreatEndSpacesF text start fuel e := by
  intro fuel
  induction fuel with
  | zero => intro e h; simpa [retreatEndSpacesF] using h
  | succ n ih =>
    intro e h
    simp only [retreatEndSpacesF]
    split
    · rename_i hcond
      simp only [Bool.and_eq_true, decide_eq_true_eq] at hcond
      exact ih (e - 1) (by omega)
    · exact h

theorem trimEndMidwordF_ge (text : List Char) (start : Nat) :
    ∀ (fuel e : Nat), start ≤ e → start ≤ trimEndMidwordF text start fuel e := by
  intro fuel
  induction fuel with
  | zero => intro e h; simpa [trimEndMidwordF] using h
  | succ n ih =>
    intro e h
    simp only [trimEndMidwordF]
    split
    · rename_i hcond
      simp only [Bool.and_eq_true, decide_eq_true_eq] at hcond
      exact ih (e - 1) (by omega)
    · exact h

theorem expandCore_le (text : List Char) (s e : Nat) (rr : Nat × Nat)
    (hse : s ≤ e) (h : expandCore text s e = some rr) : rr.1 ≤ rr.2 := by
  unfold expandCore at h
  split at h
  · split at h
    · exact absurd h (by simp)
    · rw [Option.some_inj] at h
      subst h
      exact scanOverWordF_ge text text.length _
  · rw [Option.some_inj] at h
    subst h
    dsimp only
    have h1 := expandBackwardF_le text s s
    have h2 := scanOverWordF_ge text text.length e
    omega

theorem expandOne_le (text : List Char) (r rr : Nat × Nat) (hr : r.1 ≤ r.2)
    (h : expandOne text r = some rr) : rr.1 ≤ rr.2 := by
  unfold expandOne at h
  dsimp only at h
  refine expandCore_le text _ _ rr ?_ h
  split
  · split
    · apply retreatEndSpacesF_ge
      apply advanceStartSpacesF_le
      exact trimEndMidwordF_ge text r.1 r.2 r.2 hr
    · exact trimEndMidwordF_ge text r.1 r.2 r.2 hr
  · split
    · apply retreatEndSpacesF_ge
      apply advanceStartSpacesF_le
      exact hr
    · exact hr

theorem expanded_regions_le (text : List Char) (regions : List (Nat × Nat))
    (hin : ∀ r ∈ regions, r.1 ≤ r.2) :
    ∀ rr ∈ expand_to_word_boundaries text regions, rr.1 ≤ rr.2 := by
  intro rr hrr
  unfold expand_to_word_boundaries at hrr
  rw [List.mem_filterMap] at hrr
  obtain ⟨r0, hr0, h⟩ := hrr
  exact expandOne_le text r0 rr (hin r0 hr0) h

theorem opcodesFromBlocks_bounds :
    ∀ (blocks : List (Nat × Nat × Nat)) (i j la lb : Nat),
      chainedBlocks i j la lb blocks →
      ∀ op ∈ opcodesFromBlocks i j blocks, op.i1 ≤ op.i2 ∧ op.j1 ≤ op.j2 := by
  intro blocks
  induction blocks with
  | nil => intro i j la lb _ op hop; simp [opcodesFromBlocks] at hop
  | cons hd tl ih =>
    obtain ⟨ai, bj, k⟩ := hd
    intro i j la lb h op hop
    simp only [chainedBlocks] at h
    obtain ⟨hi, hj, hrest⟩ := h
    simp only [opcodesFromBlocks, List.mem_append] at hop
    rcases hop with (hop | hop) | hop
    · have : op = Opcode.mk OpTag.replace i ai j bj ∨
          op = Opcode.mk OpTag.delete i ai j bj ∨
          op = Opcode.mk OpTag.insert i ai j bj := by
        revert hop
        split
        · intro hop; exact Or.inl (by simpa using hop)
        · split
          · intro hop; exact Or.inr (Or.inl (by simpa using hop))
          · split
            · intro hop; exact Or.inr (Or.inr (by simpa using hop))
            · intro hop; simp at hop
      rcases this with he | he | he <;> (rw [he]; exact ⟨hi, hj⟩)
    · have : op = Opcode.mk OpTag.equal ai (ai + k) bj (bj + k) := by
        revert hop
        split
        · intro hop; simpa using hop
        · intro hop; simp at hop
      rw [this]
      exact ⟨Nat.le_add_right _ _, Nat.le_add_right _ _⟩
    · exact ih (ai + k) (bj + k) la lb hrest op hop

theorem collectRegions_le (o n : List Char) :
    ∀ (ops : List Opcode) (acc : List (Nat × Nat) × List (Nat × Nat)),
      (∀ op ∈ ops, op.i1 ≤ op.i2 ∧ op.j1 ≤ op.j2) →
      (∀ r ∈ acc.1, r.1 ≤ r.2) → (∀ r ∈ acc.2, r.1 ≤ r.2) →
      (∀ r ∈ (ops.foldl (collectRegionsStep o n) acc).1, r.1 ≤ r.2) ∧
      (∀ r ∈ (ops.foldl (collectRegionsStep o n) acc).2, r.1 ≤ r.2) := by
  intro ops
  induction ops with
  | nil => intro acc _ h1 h2; exact ⟨h1, h2⟩
  | cons op rest ih =>
    intro acc hops h1 h2
    rw [List.foldl_cons]
    have hop := hops op (by simp)
    refine ih (collectRegionsStep o n acc op) (fun op2 hm => hops op2 (by simp [hm]))
      ?_ ?_
    · intro r hr
      unfold collectRegionsStep at hr
      cases htag : op.tag <;> rw [htag] at hr
      · exact h1 r hr
      · dsimp only at hr
        rcases List.mem_append.mp hr with h | h
        · exact h1 r h
        · have : r = (op.i1, op.i2) := by simpa using h
          rw [this]
          exact hop.1
      · dsimp only at hr
        revert hr
        split
        · intro hr
          rcases List.mem_append.mp hr with h | h
          · exact h1 r h
          · have : r = (op.i1, op.i2) := by simpa using h
            rw [this]
            exact hop.1
        · intro hr
          exact h1 r hr
      · dsimp only at hr
        rcases List.mem_append.mp hr with h | h
        · exact h1 r h
        · have : r = (op.i1, op.i2) := by simpa using h
          rw [this]
          exact hop.1
    · intro r hr
      unfold collectRegionsStep at hr
      cases htag : op.tag <;> rw [htag] at hr
      · exact h2 r hr
      · exact h2 r hr
      · dsimp only at hr
        revert hr
        split
        · rename_i htr
          intro hr
          rcases List.mem_append.mp hr with h | h
          · exact h2 r h
          · have : r = trim_insert_region o n op.i1 op.j1 op.j2 := by simpa using h
            rw [this]
            omega
        · intro hr
          exact h2 r hr
      · dsimp only at hr
        rcases List.mem_append.mp hr with h | h
        · exact h2 r h
        · have : r = (op.j1, op.j2) := by simpa using h
          rw [this]
          exact hop.2

theorem chainedRegions_mono (l : List (Nat × Nat)) (pos pos2 : Nat)
    (h : pos2 ≤ pos) (hc : chainedRegions pos l) : chainedRegions pos2 l := by
  cases l with
  | nil => trivial
  | cons r rest =>
    obtain ⟨s, e⟩ := r
    simp only [chainedRegions] at hc ⊢
    exact ⟨by omega, hc.2⟩

theorem mergeLoop_chained (text : List Char) :
    ∀ (rest : List (Nat × Nat)) (last : Nat × Nat),
      last.1 ≤ last.2 → (∀ r ∈ rest, r.1 ≤ r.2) →
      (∀ r ∈ rest, last.1 ≤ r.1) →
      List.Pairwise (fun x y => x.1 ≤ y.1) rest →
      chainedRegions last.1 (mergeLoop text last rest) := by
  intro rest
  induction rest with
  | nil =>
    intro last h1 _ _ _
    obtain ⟨ls, le2⟩ := last
    simp only [mergeLoop, chainedRegions]
    exact ⟨le_refl _, h1, trivial⟩
  | cons cur rest ih =>
    intro last h1 h2 h3 hpw
    simp only [mergeLoop]
    split
    · rename_i hm
      have hres := ih (last.1, max last.2 cur.2)
        (by dsimp only; omega)
        (fun r hr => h2 r (by simp [hr]))
        (fun r hr => h3 r (by simp [hr]))
        (List.pairwise_cons.mp hpw).2
      exact hres
    · rename_i hm
      have hlt : last.2 < cur.1 := by
        simp only [shouldMerge, Bool.or_eq_true, Bool.and_eq_true,
          decide_eq_true_eq] at hm
        push_neg at hm
        omega
      obtain ⟨ls, le2⟩ := last
      simp only [chainedRegions]
      refine ⟨le_refl _, h1, ?_⟩
      have hres := ih cur
        (h2 cur (by simp))
        (fun r hr => h2 r (by simp [hr]))
        (fun r hr => (List.pairwise_cons.mp hpw).1 r hr)
        (List.pairwise_cons.mp hpw).2
      exact chainedRegions_mono _ _ _ (by dsimp only at hlt; omega) hres

theorem merge_regions_chained (regions : List (Nat × Nat)) (text : List Char)
    (hle : ∀ r ∈ regions, r.1 ≤ r.2) :
    chainedRegions 0 (merge_regions regions text) := by
  unfold merge_regions
  split
  · trivial
  · rename_i r0 rest heq
    have hperm : List.Perm (List.insertionSort regionLe regions) regions :=
      List.perm_insertionSort _ _
    rw [heq] at hperm
    have hsorted : List.Pairwise regionLe (List.insertionSort regionLe regions) :=
      List.sorted_insertionSort regionLe regions
    rw [heq] at hsorted
    have hpw : List.Pairwise (fun (x y : Nat × Nat) => x.1 ≤ y.1) (r0 :: rest) :=
      hsorted.imp (fun hxy => by unfold regionLe at hxy; omega)
    have hmem : ∀ r ∈ r0 :: rest, r.1 ≤ r.2 :=
      fun r hr => hle r (hperm.mem_iff.mp hr)
    exact chainedRegions_mono _ r0.1 0 (Nat.zero_le _)
      (mergeLoop_chained text rest r0 (hmem r0 (by simp))
        (fun r hr => hmem r (by simp [hr]))
        (fun r hr => (List.pairwise_cons.mp hpw).1 r hr)
        (List.pairwise_cons.mp hpw).2)

theorem applyHLLoop_strip (text : List Char) (hesc : escChar ∉ text)
    (c sc lb : List Char)
    (hc : ∀ z, stripAnsi (c ++ z) = stripAnsi z)
    (hsc : ∀ z, stripAnsi (sc ++ z) = stripAnsi z)
    (hlb : ∀ z, stripAnsi (lb ++ z) = stripAnsi z) :
    ∀ (regions : List (Nat × Nat)) (pos : Nat), chainedRegions pos regions →
      stripAnsi (applyHLLoop text c sc lb pos regions)
        = pySlice text pos text.length := by
  intro regions
  induction regions with
  | nil =>
    intro pos _
    simp only [applyHLLoop]
    exact stripAnsi_noesc _ (pySlice_no_esc text pos text.length hesc)
  | cons r rest ih =>
    obtain ⟨s, e⟩ := r
    intro pos hch
    obtain ⟨hps, hse2, hchrest⟩ := hch
    simp only [applyHLLoop]
    simp only [List.append_assoc]
    rw [stripAnsi_noesc_append _ _ (pySlice_no_esc text pos s hesc)]
    have habs : ∀ z, stripAnsi
        ((if (pySlice text s e).all isSpaceChar then sc else c) ++ z)
        = stripAnsi z := by
      intro z
      split
      · exact hsc z
      · exact hc z
    rw [habs]
    rw [stripAnsi_noesc_append _ _ (pySlice_no_esc text s e hesc)]
    rw [stripAnsi_RESET_append, hlb]
    rw [ih e hchrest]
    rw [pySlice_glue_top text s e hse2, pySlice_glue_top text pos s hps]

/-- C9 (amended): for lines that themselves contain no escape character,
    stripping all ANSI escape sequences from the two strings returned by
    get_block_level_diff restores exactly the two input lines. -/
theorem c9_strip_restores_lines (o n : List Char)
    (ho : escChar ∉ o) (hn : escChar ∉ n) :
    stripAnsi (get_block_level_diff o n).1 = o ∧
    stripAnsi (get_block_level_diff o n).2 = n := by
  have hopsO := opcodesFromBlocks_bounds (get_matching_blocks true o n) 0 0
    o.length n.length (get_matching_blocks_chained true o n)
  have hcoll := collectRegions_le o n (get_opcodes true o n) ([], [])
    (fun op hop => hopsO op hop) (by simp) (by simp)
  constructor
  · show stripAnsi (apply_highlights o (gbdMergedOld o n) DEL_BG RED_SPACE_BG
      LINE_DEL_BG) = o
    unfold apply_highlights
    split
    · exact stripAnsi_noesc o ho
    · have hch : chainedRegions 0 (gbdMergedOld o n) := by
        unfold gbdMergedOld gbdExpandedOld
        apply merge_regions_chained
        apply expanded_regions_le
        exact hcoll.1
      rw [applyHLLoop_strip o ho DEL_BG RED_SPACE_BG LINE_DEL_BG
        stripAnsi_DEL_BG stripAnsi_RED_SPACE_BG stripAnsi_LINE_DEL_BG
        (gbdMergedOld o n) 0 hch]
      unfold pySlice
      simp
  · show stripAnsi (apply_highlights n (gbdMergedNew o n) ADD_BG GREEN_SPACE_BG
      LINE_ADD_BG) = n
    unfold apply_highlights
    split
    · exact stripAnsi_noesc n hn
    · have hch : chainedRegions 0 (gbdMergedNew o n) := by
        unfold gbdMergedNew gbdExpandedNew
        apply merge_regions_chained
        apply expanded_regions_le
        exact hcoll.2
      rw [applyHLLoop_strip n hn ADD_BG GREEN_SPACE_BG LINE_ADD_BG
        stripAnsi_ADD_BG stripAnsi_GREEN_SPACE_BG stripAnsi_LINE_ADD_BG
        (gbdMergedNew o n) 0 hch]
      unfold pySlice
      simp

theorem c9_strip_restores_lines_witness :
    stripAnsi (get_block_level_diff ['x'] ['y']).1 = ['x'] ∧
    stripAnsi (get_block_level_diff ['x'] ['y']).2 = ['y'] :=
  c9_strip_restores_lines ['x'] ['y'] (by decide) (by decide)

/-- C1: For every old block of n lines and new block of m lines — on both the DP
    path and the large-block fallback path — the old-side line numbers carried by
    the equal/replace/delete rows of iter_aligned_chunk_rows are exactly
    old_start + 1, …, old_start + n in order, i.e. the old indices 0..n-1 each
    appear exactly once and strictly increasing; likewise the new-side numbers of
    the equal/replace/insert rows cover the new indices 0..m-1 exactly once in
    order; and aligning two empty blocks yields the empty row sequence. -/
theorem c1_aligner_index_coverage (oc nc : List (List Char)) (os ns : Nat) :
    ((iter_aligned_chunk_rows oc nc os ns).filterMap rowOldNo
       = (List.range oc.length).map (fun idx => os + idx + 1) ∧
     (iter_aligned_chunk_rows oc nc os ns).filterMap rowNewNo
       = (List.range nc.length).map (fun idx => ns + idx + 1)) ∧
    iter_aligned_chunk_rows [] [] os ns = [] := by
  constructor
  · unfold iter_aligned_chunk_rows
    split
    · have hch := get_matching_blocks_chained true oc nc
      have hcov := fallback_cover oc nc os ns (get_matching_blocks true oc nc)
        0 0 oc.length nc.length hch
      unfold get_opcodes
      constructor
      · rw [hcov.1, Nat.sub_zero, List.range_eq_range']
      · rw [hcov.2, Nat.sub_zero, List.range_eq_range']
    · have hcover := backtrackF_coverage oc nc
        (fun i j => (dpCell (simMatrix oc nc) i j).2)
        (fun i => dpCell_bt_row (simMatrix oc nc) i)
        (fun j => dpCell_bt_col (simMatrix oc nc) j)
        (oc.length + nc.length) oc.length nc.length (le_refl _)
      constructor
      · rw [List.filterMap_map]
        have hc : (rowOldNo ∘ rowOfOp oc nc os ns)
            = fun op => (opOldIdx op).map (fun idx => os + idx + 1) := by
          funext op
          exact rowOldNo_rowOfOp oc nc os ns op
        rw [hc, ← List.map_filterMap, hcover.1]
      · rw [List.filterMap_map]
        have hc : (rowNewNo ∘ rowOfOp oc nc os ns)
            = fun op => (opNewIdx op).map (fun idx => ns + idx + 1) := by
          funext op
          exact rowNewNo_rowOfOp oc nc os ns op
        rw [hc, ← List.map_filterMap, hcover.2]
  · rfl

end Zdiff
